import Mathlib

/-!
Verification of the content-addressed object-store subsystem vendored in this
repository (the `dvc_data` / `dvc_objects` packages under
`src/Water_Probability/myenv/Lib/site-packages/`): the hash-file object
database, the directory-tree representation, and the diff / checkout /
transfer algorithms.  Each Python function relevant to a verified property is
shallowly embedded as an executable Lean definition; filesystem and network
effects are abstracted as explicit oracle parameters.
-/

/-! ### Data model: HashInfo, Meta, tree keys -/

/-- HashInfo from `dvc_data/hashfile/hash_info.py`: an attrs class with optional
`name` and `value` strings.  The `obj_name` field is omitted: it is `eq=False,
hash=False` and no verified property reads it. -/
structure HashInfo where
  name : Option String
  value : Option String
deriving DecidableEq

/-- Python truthiness of HashInfo: `__bool__` returns `bool(self.value)`, false
exactly when the value is `None` or the empty string. -/
def HashInfo.toBool (hi : HashInfo) : Bool :=
  match hi.value with
  | none => false
  | some v => v ≠ ""

/-- Python str.endswith on the code-point lists of the two strings (stated
structurally so that concrete instances evaluate in the kernel). -/
def strEndsWith (v suf : String) : Bool :=
  decide (v.data.reverse.take suf.data.length = suf.data.reverse)

/-- HashInfo.isdir: true when the value ends with the `.dir` suffix. -/
def HashInfo.isdir (hi : HashInfo) : Bool :=
  match hi.value with
  | none => false
  | some v => strEndsWith v (".dir")

/-- Meta from `dvc_data/hashfile/meta.py` (attrs class derived from stat or
backend info).  `mtime` is an integer timestamp here (Python uses a float; no
verified property reads it).  The `remote`, `is_link`, `destination` and
`nlink` fields are `eq=False` in attrs; no verified property compares Meta
values, they are only passed through and tested for presence. -/
structure Meta where
  isdir : Bool := false
  size : Option Int := none
  nfiles : Option Int := none
  isexec : Bool := false
  version_id : Option String := none
  etag : Option String := none
  checksum : Option String := none
  md5 : Option String := none
  inode : Option Int := none
  mtime : Option Int := none
  remote : Option String := none
  is_link : Bool := false
  destination : Option String := none
  nlink : Int := 1
deriving DecidableEq

/-- A tree key: the tuple of path components used by `Tree._dict`. -/
abbrev TreeKey := List String

/-- The value stored for a key in `Tree._dict`: an optional Meta and an
optional HashInfo. -/
abbrev TreeVal := Option Meta × Option HashInfo

/-- The canonical posix relpath of a key: `posixpath.sep.join(parts)` as used
by `Tree.as_list`. -/
def relpathOf (k : TreeKey) : String := String.intercalate ("/") k

/-! ### Diff model (`dvc_data/hashfile/diff.py`) -/

/-- A hash-addressed object as seen by `diff`: a plain HashFile or a Tree
(`dvc_data/hashfile/obj.py`, `tree.py`).  `hashInfo` is the object's
`hash_info` attribute (`None` for an undigested tree).  `Object.oid` always
mirrors `hash_info.value` (HashFile's constructor asserts it, `Tree.digest`
and `Tree.load` assign it), so it is not carried separately.  A tree's
`_dict` is an insertion-ordered association list, like the Python dict. -/
inductive PyObj where
  | file (hashInfo : Option HashInfo)
  | tree (hashInfo : Option HashInfo) (dict : List (TreeKey × TreeVal))
deriving DecidableEq

/-- The `hash_info` attribute of an object. -/
def PyObj.hashInfo : PyObj → Option HashInfo
  | .file hi => hi
  | .tree hi _ => hi

/-- Python truthiness of an optional object handle: `Object.__bool__` is
`bool(self.oid)` and `oid` mirrors `hash_info.value`; `None` is falsy. -/
def objBool : Option PyObj → Bool
  | none => false
  | some o => (o.hashInfo.map HashInfo.toBool).getD false

/-- ROOT key from diff.py: the one-element tuple `("",)`. -/
def ROOT : TreeKey := [""]

/-- The `_get_keys` helper inside `diff`: empty for a falsy object, else ROOT
plus (for trees) every key of the tree. -/
def getKeys (obj : Option PyObj) : List TreeKey :=
  if ¬ objBool obj then []
  else
    match obj with
    | some (.tree _ d) => ROOT :: d.map Prod.fst
    | _ => [ROOT]

/-- Python dict lookup `self._dict.get(key, default)` on an association list
ordered by insertion. -/
def lookupKey (d : List (TreeKey × TreeVal)) (k : TreeKey) : Option TreeVal :=
  (d.find? (fun p => decide (p.1 = k))).map Prod.snd

/-- The `_get` helper inside `diff`: the `(meta, hash_info)` pair an object
associates to `key`.  A falsy object or the ROOT key yields the object's own
hash_info (None for a falsy object); a non-tree object has no entry for a
non-ROOT key. -/
def getEntry (obj : Option PyObj) (k : TreeKey) : TreeVal :=
  if ¬ objBool obj ∨ k = ROOT then
    (none, if objBool obj then obj.bind PyObj.hashInfo else none)
  else
    match obj with
    | some (.tree _ d) => (lookupKey d k).getD (none, none)
    | _ => (none, none)

/-- The `_cache_check` helper inside `diff`: `cache.check(oid)` returns the
Meta of the cached object, or None when the cache raises FileNotFoundError or
ObjectFormatError.  The cache odb is abstracted as a partial map from oid
value to Meta; the `functools.cache` memoization does not change results.
The surrounding guard `... if old_oid else None` is Python truthiness. -/
def cacheCheckMeta (cache : String → Option Meta) (oid : Option HashInfo) : Option Meta :=
  match oid with
  | none => none
  | some hi =>
    if hi.toBool then
      match hi.value with
      | some v => cache v
      | none => none
    else none

/-- TreeEntry from diff.py: attrs class bundling the cache-presence Meta, the
key, the entry Meta and the entry HashInfo. -/
structure TreeEntryD where
  cacheMeta : Option Meta
  key : TreeKey
  meta : Option Meta
  oid : Option HashInfo
deriving DecidableEq

/-- attrs equality of TreeEntry: `cache_meta` and `meta` are `eq=False`, so
only `key` and `oid` are compared. -/
def TreeEntryD.pyEq (a b : TreeEntryD) : Bool :=
  decide (a.key = b.key) && decide (a.oid = b.oid)

/-- TreeEntry.__bool__ is `bool(self.oid)`. -/
def TreeEntryD.toBool (e : TreeEntryD) : Bool :=
  (e.oid.map HashInfo.toBool).getD false

/-- The four change types of diff.py. -/
inductive ChangeTyp where
  | add | modify | delete | unchanged
deriving DecidableEq

/-- The `typ` default of `Change` (diff.py lines 41-55), computed from the
`old` and `new` entries exactly as the attrs default factory does. -/
def changeTyp (old new : TreeEntryD) : ChangeTyp :=
  if ¬ old.toBool ∧ ¬ new.toBool then .unchanged
  else if old.toBool ∧ ¬ new.toBool then .delete
  else if ¬ old.toBool ∧ new.toBool then .add
  else if ¬ old.pyEq new then .modify
  else .unchanged

/-- Change from diff.py.  The `typ` field is `init=False` in attrs: it is
always produced by the default factory, which `mkChange` enforces. -/
structure Change where
  old : TreeEntryD
  new : TreeEntryD
  typ : ChangeTyp
deriving DecidableEq

/-- Construct a Change the only way diff.py does: `typ` computed from
`old`/`new`. -/
def mkChange (old new : TreeEntryD) : Change :=
  ⟨old, new, changeTyp old new⟩

/-- DiffResult from diff.py: the four buckets of changes. -/
structure DiffResult where
  added : List Change := []
  modified : List Change := []
  deleted : List Change := []
  unchanged : List Change := []
deriving DecidableEq

/-- The change `diff` constructs for one key of the key union. -/
def changeAt (old new : Option PyObj) (cache : String → Option Meta) (k : TreeKey) : Change :=
  mkChange
    ⟨cacheCheckMeta cache (getEntry old k).2, k, (getEntry old k).1, (getEntry old k).2⟩
    ⟨cacheCheckMeta cache (getEntry new k).2, k, (getEntry new k).1, (getEntry new k).2⟩

/-- diff(old, new, cache) from diff.py lines 83-143.  The Python loop iterates
the set `old_keys | new_keys` and appends each key's change to the bucket
selected by its `typ`; here the union is iterated as the deduplicated
concatenation of the two key lists (a fixed iteration order of that set — set
order is unspecified in Python and every claim below is order-insensitive),
and the four buckets are the corresponding filters of the per-key changes. -/
def diffRun (old new : Option PyObj) (cache : String → Option Meta) : DiffResult :=
  if old = none ∧ new = none then {} else
  let keys := (getKeys old ++ getKeys new).dedup
  let changes := keys.map (changeAt old new cache)
  { added := changes.filter (fun c => decide (c.typ = .add))
    modified := changes.filter (fun c => decide (c.typ = .modify))
    deleted := changes.filter (fun c => decide (c.typ = .delete))
    unchanged := changes.filter (fun c => decide (c.typ = .unchanged)) }

/-- Flip of a change type under exchanging the diff's two sides. -/
def swapEntryTyp : ChangeTyp → ChangeTyp
  | .add => .delete
  | .delete => .add
  | .modify => .modify
  | .unchanged => .unchanged

/-- A Change with its old and new entries exchanged (and the type that the
exchanged diff computes for it). -/
def swapChange (c : Change) : Change :=
  ⟨c.new, c.old, swapEntryTyp c.typ⟩

/-! ### Tree serialization and digest model (`dvc_data/hashfile/tree.py`) -/

/-- Python dict assignment `self._dict[key] = (meta, oid)` as performed by
`Tree.add`: update in place when the key exists (keeping its position in the
insertion order), else append. -/
def dictAdd (d : List (TreeKey × TreeVal)) (k : TreeKey) (v : TreeVal) :
    List (TreeKey × TreeVal) :=
  if d.any (fun p => decide (p.1 = k)) then
    d.map (fun p => if p.1 = k then (k, v) else p)
  else d ++ [(k, v)]

/-- The `_dict` of a Tree built by a sequence of `Tree.add` calls starting
from `Tree()`. -/
def treeOfAdds (l : List (TreeKey × TreeVal)) : List (TreeKey × TreeVal) :=
  l.foldl (fun d kv => dictAdd d kv.1 kv.2) []

/-- One serialized entry of `Tree.as_list` (`with_meta=False`, the form that
`digest` hashes): the JSON object `{**_hi_to_dict(hi), "relpath": relpath}`.
The hash dict has at most one key. -/
structure SerEntry where
  hashField : Option (String × String)
  relpath : String
deriving DecidableEq

/-- The `_hi_to_dict` helper of `Tree.as_list`: {} for a falsy HashInfo,
{"md5": value} for the md5-dos2unix algorithm, else `HashInfo.to_dict`
(which is {} when name or value is missing or empty). -/
def hiToDict (hi : Option HashInfo) : Option (String × String) :=
  match hi with
  | none => none
  | some h =>
    if ¬ h.toBool then none
    else if h.name = some ("md5-dos2unix") then some (("md5"), h.value.getD (""))
    else
      match h.name, h.value with
      | some n, some v => if v = "" ∨ n = "" then none else some (n, v)
      | _, _ => none

/-- The serialized form of one `_dict` entry. -/
def serOfEntry (p : TreeKey × TreeVal) : SerEntry :=
  ⟨hiToDict p.2.2, relpathOf p.1⟩

/-- Lexicographic comparison of code-point lists: exactly how Python compares
two strings (`sorted` key comparison and json.dumps `sort_keys`). -/
def lexLe : List Char → List Char → Bool
  | [], _ => true
  | _ :: _, [] => false
  | a :: as, b :: bs =>
    if a < b then true
    else if b < a then false
    else lexLe as bs

/-- The sort relation of `Tree.as_list`:
`sorted(..., key=itemgetter("relpath"))` compares the relpath strings. -/
def serRel (a b : SerEntry) : Prop :=
  lexLe a.relpath.data b.relpath.data = true

instance : DecidableRel serRel := fun _ _ => inferInstanceAs (Decidable (_ = _))

/-- `Tree.as_list(with_meta=False)`: serialize every `_dict` entry in
insertion order, then sort by relpath.  Python `sorted` is a stable sort;
insertion sort is also stable, and any two stable sorts by the same key
coincide, so this computes exactly the Python list. -/
def asListEntries (d : List (TreeKey × TreeVal)) : List SerEntry :=
  List.insertionSort serRel (d.map serOfEntry)

/-- JSON string literal; the verified inputs contain none of the characters
json.dumps escapes. -/
def jsonStr (s : String) : String := "\"" ++ s ++ "\""

/-- One `"key": "value"` pair with json.dumps default separators. -/
def jsonKV (k v : String) : String := jsonStr k ++ ": " ++ jsonStr v

/-- JSON object for one serialized entry with keys sorted
(`sort_keys=True`). -/
def serEntryJson (e : SerEntry) : String :=
  match e.hashField with
  | none => "\x7b" ++ jsonKV ("relpath") e.relpath ++ "\x7d"
  | some (n, v) =>
    if lexLe n.data ("relpath").data then
      "\x7b" ++ jsonKV n v ++ ", " ++ jsonKV ("relpath") e.relpath ++ "\x7d"
    else
      "\x7b" ++ jsonKV ("relpath") e.relpath ++ ", " ++ jsonKV n v ++ "\x7d"

/-- `Tree.as_bytes(with_meta=False)`: the canonical JSON array (UTF-8 text of
`json.dumps(self.as_list(), sort_keys=True)`). -/
def asBytesStr (d : List (TreeKey × TreeVal)) : String :=
  "[" ++ String.intercalate (", ") ((asListEntries d).map serEntryJson) ++ "]"

/-- `Tree.digest`: hash the canonical bytes and append the `.dir` suffix;
this is the resulting `hash_info.value` / `oid`.  The digest algorithm
(`hash_file`, md5 by default) is abstracted as the parameter `H` from the
hashed bytes to the hash value: digest equality for every `H` is exactly
equality of the serialized bytes, which is the mechanism the claim itself
invokes ("serialization sorts entries ... before hashing"). -/
def digestValue (H : String → String) (d : List (TreeKey × TreeVal)) : String :=
  H (asBytesStr d) ++ ".dir"

/-- The identity function used as a hash-algorithm parameter in concrete
evaluations: it exposes the hashed bytes themselves. -/
def hashId : String → String := fun s => s

/-- C1 counterexample data: two entries with distinct keys ("a","b") and
("a/b",) that serialize to the same relpath "a/b" but different md5 values. -/
def c1entryA : TreeKey × TreeVal :=
  (["a", "b"], (none, some ⟨some ("md5"), some ("11111111111111111111111111111111")⟩))

/-- Second C1 counterexample entry; see `c1entryA`. -/
def c1entryB : TreeKey × TreeVal :=
  (["a/b"], (none, some ⟨some ("md5"), some ("22222222222222222222222222222222")⟩))

/-- C1 witness data: two entries with distinct relpaths. -/
def c1w1 : TreeKey × TreeVal :=
  (["a.txt"], (none, some ⟨some ("md5"), some ("33333333333333333333333333333333")⟩))

/-- Second C1 witness entry; see `c1w1`. -/
def c1w2 : TreeKey × TreeVal :=
  (["sub", "b.txt"], (none, some ⟨some ("md5"), some ("44444444444444444444444444444444")⟩))

/-! ### Transfer model (`dvc_data/hashfile/transfer.py`) -/

/-- State threaded through the `for dir_hash in dir_ids` loop of
`_do_transfer` (transfer.py lines 73-121): the remaining not-yet-bound file
ids (`file_ids`), the accumulated `failed_ids`, and the set of oids actually
copied to the destination by successful `_add` calls (`sent` is our
observation of the destination's content, not a Python variable). -/
structure XferState where
  fileIds : List HashInfo
  failed : List HashInfo
  sent : List HashInfo
deriving DecidableEq

/-- One iteration of the directory loop of `_do_transfer`.  `tree` gives the
entry oids of the tree loaded for a `.dir` oid (`find_tree_by_obj_id`; the
code asserts the load succeeds), `ok` tells whether `_add` succeeds in
copying a given oid (per-object failures are collected via `on_error`),
`missing` is the compare-status missing set.  Python's sets are carried as
lists and read through membership only, so duplicates are irrelevant; the
branch order mirrors the source: constituent failures, then missing entries,
then the `.dir` object's own upload. -/
def processDir (tree : HashInfo → List HashInfo) (ok : HashInfo → Bool)
    (missing : List HashInfo) (st : XferState) (dirHash : HashInfo) : XferState :=
  let entryIds := tree dirHash
  let bound := st.fileIds.filter (fun o => decide (o ∈ entryIds))
  let rest := st.fileIds.filter (fun o => decide (o ∉ entryIds))
  let dirFails := bound.filter (fun o => ¬ ok o)
  let sent := st.sent ++ bound.filter (fun o => ok o)
  if dirFails ≠ [] then
    ⟨rest, st.failed ++ dirFails ++ [dirHash], sent⟩
  else if entryIds.filter (fun o => decide (o ∈ missing)) ≠ [] then
    ⟨rest, st.failed, sent⟩
  else if ¬ ok dirHash then
    ⟨rest, st.failed ++ [dirHash], sent⟩
  else
    ⟨rest, st.failed, sent ++ [dirHash]⟩

/-- `_do_transfer` (transfer.py lines 58-140): split `obj_ids` into dir ids
and file ids, run the directory loop, then `_add` the remaining files.
`objIds` lists the ids in the iteration order of the Python sets (unspecified
by Python; the universally quantified statements below range over every
order).  Index maintenance (`src_index.clear`, `dest_index.update`) does not
affect the failed set or the destination content and is omitted. -/
def doTransferRun (tree : HashInfo → List HashInfo) (ok : HashInfo → Bool)
    (objIds : List HashInfo) (missing : List HashInfo) : XferState :=
  let dirIds := objIds.filter (fun h => h.isdir)
  let fileIds := (objIds.filter (fun h => ¬ h.isdir)).dedup
  let st := dirIds.foldl (processDir tree ok missing) ⟨fileIds, [], []⟩
  ⟨[], st.failed ++ st.fileIds.filter (fun o => ¬ ok o),
    st.sent ++ st.fileIds.filter (fun o => ok o)⟩

/-- C2 counterexample data: two directory oids sharing one constituent file
oid. -/
def c2dir1 : HashInfo := ⟨some ("md5"), some ("d1.dir")⟩

/-- Second directory oid of the C2 counterexample. -/
def c2dir2 : HashInfo := ⟨some ("md5"), some ("d2.dir")⟩

/-- The shared constituent file oid of the C2 counterexample. -/
def c2file : HashInfo := ⟨some ("md5"), some ("ffffffffffffffffffffffffffffffff")⟩

/-- Tree contents for the C2 counterexample: both directories contain exactly
the shared file. -/
def c2tree : HashInfo → List HashInfo := fun h =>
  if h = c2dir1 ∨ h = c2dir2 then [c2file] else []

/-- Transfer outcomes for the C2 counterexample: copying the shared file
fails, everything else succeeds. -/
def c2ok : HashInfo → Bool := fun h => decide (h ≠ c2file)

/-! ### Transfer entry point and ODB identity (`transfer.py`, `dvc_objects/db.py`) -/

/-- The attributes `ObjectDB.__eq__` compares (dvc_objects/db.py lines
47-52): filesystem protocol, root path, and the read-only flag (the
`isinstance` check always passes for the ODB arguments of `transfer`). -/
structure OdbId where
  protocol : String
  path : String
  read_only : Bool
deriving DecidableEq

/-- Result of `compare_status` (dvc_data/hashfile/status.py): the `new` ids
(those to transfer) and the `missing` ids (absent from both sides); the
`ok`/`deleted` fields are not read by `transfer`. -/
structure StatusResult where
  new : List HashInfo
  missing : List HashInfo

/-- `transfer` (transfer.py lines 175-238).  The effectful compare-status
step and the `_do_transfer` copying step are oracle parameters, so the early
return at `src == dest` is observably independent of both; the returned pair
is `(status.new - failed, failed)`. -/
def transferRun (src dest : OdbId) (compareStatus : Unit → StatusResult)
    (doXfer : List HashInfo → List HashInfo → List HashInfo) :
    List HashInfo × List HashInfo :=
  if src = dest then ([], [])
  else
    let status := compareStatus ()
    if status.new = [] then ([], [])
    else
      let failed := doXfer status.new status.missing
      (status.new.filter (fun o => decide (o ∉ failed)), failed)

/-! ### ODB mutation model (`dvc_objects/db.py`) -/

/-- Error outcomes of the embedded ODB operations.  Modelled from the spec:
the class bodies live in `dvc_objects/errors.py`, which is not vendored under
src/ (only the raise sites are); the spec's error taxonomy names the
categories — "PermissionError-class — mutating a read-only ODB" and
"ObjectFormatError — stored bytes don't match their oid". -/
inductive OdbErr where
  | permissionError
  | objectFormatError
  | fileNotFound
deriving DecidableEq

/-- An ObjectDB as seen by the mutators: the read-only flag and the stored
oids (the oid-to-path layout is the bijection verified separately). -/
structure OdbState where
  read_only : Bool
  store : List String
deriving DecidableEq

/-- `ObjectDB.add_bytes` (db.py lines 121-135): raise on a read-only ODB
before any mutation, else store the bytes at the oid's sharded path. -/
def odbAddBytes (db : OdbState) (oid : String) : Except OdbErr OdbState :=
  if db.read_only then .error .permissionError
  else .ok ⟨db.read_only, db.store ++ [oid]⟩

/-- `ObjectDB.add` (db.py lines 137-197): raise on a read-only ODB before any
mutation; otherwise skip oids already present (when `check_exists`), copy the
remaining objects (per-item failures are reported through `on_error` and
subtracted from the returned count), and return how many were transferred.
`okCopy` is the per-object success oracle of `generic.transfer`. -/
def odbAdd (db : OdbState) (oids : List String) (checkExists : Bool)
    (okCopy : String → Bool) : Except OdbErr (OdbState × Nat) :=
  if db.read_only then .error .permissionError
  else
    let toAdd := if checkExists then oids.filter (fun o => decide (o ∉ db.store)) else oids
    let copied := toAdd.filter okCopy
    .ok (⟨db.read_only, db.store ++ copied⟩, copied.length)

/-- `ObjectDB.delete` (db.py lines 199-200):
`self.fs.remove(self.oid_to_path(oid))` — note the absence of a read-only
check.  Removing a missing path raises FileNotFoundError from the
filesystem. -/
def odbDelete (db : OdbState) (oid : String) : Except OdbErr OdbState :=
  if oid ∈ db.store then
    .ok ⟨db.read_only, db.store.filter (fun o => decide (o ≠ oid))⟩
  else .error .fileNotFound

/-! ### Checkout model (`dvc_data/hashfile/checkout.py`) -/

/-- Filesystem-level outcome of materializing one entry inside
`Link.__call__`'s `transfer` call (checkout.py lines 247-267): success,
FileNotFoundError (missing cache file, re-raised as
`CheckoutError([to_path])`), or OSError (failed link strategy, re-raised as
`LinkError(to_path)`). -/
inductive LinkOutcome where
  | ok
  | fileNotFound
  | osError
deriving DecidableEq

/-- The exceptions `_checkout`'s entry loop can surface. -/
inductive CkExc where
  | checkoutError (paths : List String)
  | linkError (path : String)
deriving DecidableEq

/-- One added/modified entry of the diff as consumed by `_checkout`
(checkout.py lines 297-321): its target path and whether its new oid is a
directory. -/
structure CkEntry where
  path : String
  isdir : Bool
deriving DecidableEq

/-- Observation of one `_checkout` run: the entry paths whose materialization
was attempted, the collected failed paths, and the exception that ended the
run, if any. -/
structure CkRun where
  attempted : List String
  failedPaths : List String
  exc : Option CkExc
deriving DecidableEq

/-- The `for change in chain(diff.added, diff.modified)` loop of `_checkout`
(checkout.py lines 297-321): directory targets get `makedirs`; a file whose
link raises `CheckoutError` (FileNotFoundError inside `transfer`) has its
paths collected into `failed`; a `LinkError` (OSError inside `transfer`) is
not caught by the `except CheckoutError` clause and aborts the loop.
`outcome` is the per-path filesystem oracle. -/
def ckLoop (outcome : String → LinkOutcome) :
    List CkEntry → List String → List String → CkRun
  | [], att, failed => ⟨att, failed, none⟩
  | e :: rest, att, failed =>
    if e.isdir then ckLoop outcome rest (att ++ [e.path]) failed
    else
      match outcome e.path with
      | .ok => ckLoop outcome rest (att ++ [e.path]) failed
      | .fileNotFound => ckLoop outcome rest (att ++ [e.path]) (failed ++ [e.path])
      | .osError => ⟨att ++ [e.path], failed, some (.linkError e.path)⟩

/-- `_checkout`'s entry loop plus the final aggregation (checkout.py lines
294-327): after the loop, if any failures were collected, one aggregate
`CheckoutError(failed)` is raised.  The deleted-entry phase and the initial
link-capability probe precede the loop and do not interact with the
per-entry materialization this claim is about. -/
def ckCheckout (outcome : String → LinkOutcome) (entries : List CkEntry) : CkRun :=
  let run := ckLoop outcome entries [] []
  match run.exc with
  | some _ => run
  | none =>
    if run.failedPaths ≠ [] then
      ⟨run.attempted, run.failedPaths, some (.checkoutError run.failedPaths)⟩
    else run

/-- C5 counterexample oracle: the link strategy fails with an OSError on
path p1 and succeeds elsewhere. -/
def c5outcome : String → LinkOutcome :=
  fun p => if p = "p1" then .osError else .ok

/-! ### HashFileDB.check model (`dvc_data/hashfile/db/__init__.py`) -/

/-- The component of a hash value before the first '.' —
`value.split(".")[0]`. -/
def primaryPart (s : String) : String :=
  String.mk ((s.data.splitOn ('.')).headD [])

/-- `HashFileDB.check(oid, check_hash=True)` (db/__init__.py lines 140-184):
re-hash the stored bytes (`hash_file`, the oracle `H` on the stored content;
it raises FileNotFoundError when the object is absent), then compare the
component before the first '.' of the recomputed value with that of `oid`;
on mismatch remove the stored file and raise ObjectFormatError, otherwise
protect the file (a no-op in the base class) and return the Meta that
`hash_file` computed (oracle `metaOf`).  The store is the oid-keyed content
map of the underlying ODB. -/
def hfdbCheck (H : String → String) (metaOf : String → Meta)
    (store : List (String × String)) (oid : String) :
    Except OdbErr Meta × List (String × String) :=
  match (store.find? (fun p => decide (p.1 = oid))).map Prod.snd with
  | none => (.error .fileNotFound, store)
  | some bytes =>
    if primaryPart (H bytes) ≠ primaryPart oid then
      (.error .objectFormatError, store.filter (fun p => decide (p.1 ≠ oid)))
    else
      (.ok (metaOf bytes), store)

/-! ### Path mapping model (`dvc_objects/db.py`, `dvc_objects/fs/base.py`)

Paths are code-point lists; the flavour is posixpath (the generic
`FileSystem.flavour`).  All loops are embedded structurally (with an explicit
fuel argument bounded by the path length where CPython iterates) so concrete
instances evaluate in the kernel. -/

/-- The posix separator test. -/
def isSep (c : Char) : Bool := c = '/'

/-- `path.rstrip(sep)`: strip trailing separators. -/
def rstripSep (p : List Char) : List Char :=
  (p.reverse.dropWhile isSep).reverse

/-- posixpath.split: break at the last separator; the head keeps its
trailing separators only when it consists solely of separators. -/
def psplit (p : List Char) : List Char × List Char :=
  let tail := (p.reverse.takeWhile (fun c => ! isSep c)).reverse
  let head := p.take (p.length - tail.length)
  (if head ≠ [] ∧ head.any (fun c => ! isSep c) then rstripSep head else head, tail)

/-- The loop of `FileSystem.parts` (fs/base.py lines 144-165; posix flavour,
so `splitdrive` contributes nothing): repeatedly `split`, collecting the
tail components from right to left.  Each productive split strictly shortens
the path, so fuel `p.length + 1` (supplied by `pparts`) never runs out. -/
def partsLoopF : Nat → List Char → List (List Char) → List (List Char)
  | 0, _, acc => acc
  | fuel + 1, p, acc =>
    let pr := psplit p
    if pr.2 ≠ [] then partsLoopF fuel pr.1 (pr.2 :: acc)
    else if pr.1 ≠ [] then pr.1 :: acc else acc

/-- `FileSystem.parts` (fs/base.py lines 144-165). -/
def pparts (p : List Char) : List (List Char) :=
  partsLoopF (p.length + 1) (rstripSep p) []

/-- One step of posixpath.join: an absolute component replaces the result,
otherwise it is appended, inserting a separator unless the result is empty
or already ends with one. -/
def pjoin2 (acc b : List Char) : List Char :=
  if b.head? = some '/' then b
  else if acc = [] ∨ acc.getLast? = some '/' then acc ++ b
  else acc ++ '/' :: b

/-- posixpath.join(a, *rest), i.e. `FileSystem.join` for the posix
flavour. -/
def pjoin (a : List Char) (rest : List (List Char)) : List Char :=
  rest.foldl pjoin2 a

/-- posixpath.isabs: the path starts with the separator. -/
def pIsAbs (p : List Char) : Bool := p.head? = some '/'

/-- One step of posixpath.normpath's component scan: drop empty and "."
components; append a component unless it is a ".." that cancels a previous
real component. -/
def normStep (initialSlashes : Nat) (acc : List (List Char)) (comp : List Char) :
    List (List Char) :=
  if comp = [] ∨ comp = ['.'] then acc
  else if comp ≠ ['.', '.'] ∨ (initialSlashes = 0 ∧ acc = []) ∨
      (acc ≠ [] ∧ acc.getLast? = some ['.', '.']) then acc ++ [comp]
  else if acc ≠ [] then acc.dropLast else acc

/-- `FileSystem.normpath` (fs/base.py lines 119-125): urlsplit the path,
posix-normalize the path component, reassemble.  For plain paths without a
URL scheme, query or fragment — the only paths these properties quantify
over — the urlsplit wrapping is the identity and this is exactly
posixpath.normpath, embedded here. -/
def pnormpath (p : List Char) : List Char :=
  if p = [] then ['.']
  else
    let initialSlashes : Nat :=
      if p.head? = some '/' then
        if p.take 2 = ['/', '/'] ∧ p.take 3 ≠ ['/', '/', '/'] then 2 else 1
      else 0
    let comps := p.splitOn '/'
    let newComps := comps.foldl (normStep initialSlashes) []
    let res := List.replicate initialSlashes '/' ++ List.intercalate ['/'] newComps
    if res = [] then ['.'] else res

/-- `FileSystem.abspath` (fs/base.py lines 131-134): join onto `getcwd()`
(the empty string for these filesystems) when relative, then normpath. -/
def pabspath (p : List Char) : List Char :=
  pnormpath (if pIsAbs p then p else pjoin [] [p])

/-- `ObjectDB.oid_to_path` (db.py lines 206-210):
`fs.join(self.path, oid[:2], oid[2:])`. -/
def oidToPath (root oid : List Char) : List Char :=
  pjoin root [oid.take 2, oid.drop 2]

/-- `ObjectDB.path_to_oid` (db.py lines 227-238): take the path's parts past
the root's parts; exactly two must remain, the first a two-character shard
directory; their concatenation is the oid, anything else raises
ValueError. -/
def pathToOid (root p : List Char) : Except Unit (List Char) :=
  let selfPath := if pIsAbs p then pabspath root else root
  let selfParts := pparts selfPath
  let parts := (pparts p).drop selfParts.length
  match parts with
  | [s, r] => if s ≠ [] ∧ s.length = 2 then .ok (s ++ r) else .error ()
  | _ => .error ()

/-- A clean path component: nonempty and separator-free. -/
def cleanComp (c : List Char) : Prop := c ≠ [] ∧ ∀ x ∈ c, ¬ isSep x

instance (c : List Char) : Decidable (cleanComp c) := by
  unfold cleanComp
  infer_instance

/-- A normalized absolute root path `/c₁/.../cₙ`: at least one clean
component, none being the relative reference "." or "..".  This is the shape
of every ODB root the library constructs (`os.path.abspath`-normalized cache
directories). -/
def goodRoot (root : List Char) (cs : List (List Char)) : Prop :=
  cs ≠ [] ∧ (∀ c ∈ cs, cleanComp c ∧ c ≠ ['.'] ∧ c ≠ ['.', '.']) ∧
  root = '/' :: List.intercalate ['/'] cs

instance (root : List Char) (cs : List (List Char)) : Decidable (goodRoot root cs) := by
  unfold goodRoot
  infer_instance

/-! ### Theorems -/

/-- C9: for every cache ODB, `diff(None, None, cache)` returns a DiffResult
whose four buckets are all empty; the result does not depend on the cache
(the early return fires before any cache lookup). -/
theorem c9_diff_none_none (cache : String → Option Meta) :
    diffRun none none cache =
      { added := [], modified := [], deleted := [], unchanged := [] } := by
  rfl

/-- C8 spec-side classification, following the claim's words: unchanged when
neither side is present, delete when only old is present, add when only new is
present, modify when both are present but compare unequal, unchanged when both
are present and equal.  Presence is Python truthiness of the entry
(`bool(entry.oid)`) and comparison is the attrs equality. -/
def changeTypSpec (old new : TreeEntryD) : ChangeTyp :=
  match old.toBool, new.toBool with
  | false, false => .unchanged
  | true, false => .delete
  | false, true => .add
  | true, true => if old.pyEq new then .unchanged else .modify

/-- C8: a Change's type is fully determined by its old and new entries, and
the determination agrees case-by-case with the claim's description: unchanged
when neither entry is present, delete when only old, add when only new,
modify when both are present but compare unequal, unchanged when both are
present and equal.  (`typ` is `init=False` in attrs: it is never set
independently of old/new.) -/
theorem c8_change_typ_determined (old new : TreeEntryD) :
    (mkChange old new).typ = changeTypSpec old new := by
  show changeTyp old new = changeTypSpec old new
  unfold changeTyp changeTypSpec
  cases h1 : old.toBool <;> cases h2 : new.toBool <;>
    simp [h1, h2] <;>
    by_cases h : old.pyEq new <;> simp [h]

/-- attrs equality of TreeEntry is symmetric. -/
theorem TreeEntryD.pyEq_comm (a b : TreeEntryD) : a.pyEq b = b.pyEq a := by
  unfold TreeEntryD.pyEq
  by_cases h1 : a.key = b.key <;> by_cases h2 : a.oid = b.oid <;>
    simp [h1, h2, eq_comm]

/-- Exchanging the two entries flips the computed change type. -/
theorem changeTyp_swap (a b : TreeEntryD) :
    changeTyp b a = swapEntryTyp (changeTyp a b) := by
  unfold changeTyp
  rw [TreeEntryD.pyEq_comm b a]
  cases h1 : a.toBool <;> cases h2 : b.toBool <;>
    by_cases h : a.pyEq b <;> simp [h1, h2, h, swapEntryTyp]

/-- A change compared with itself is unchanged. -/
theorem changeTyp_self (e : TreeEntryD) : changeTyp e e = .unchanged := by
  unfold changeTyp
  by_cases h : e.toBool <;> simp [h, TreeEntryD.pyEq]

/-- The per-key change of the reversed diff is the swapped per-key change. -/
theorem changeAt_swap (A B : Option PyObj) (cache : String → Option Meta) (k : TreeKey) :
    changeAt B A cache k = swapChange (changeAt A B cache k) := by
  unfold changeAt mkChange swapChange
  rw [changeTyp_swap]

/-- The two orientations of the key union are permutations of each other. -/
theorem diff_keys_perm (A B : Option PyObj) :
    ((getKeys A ++ getKeys B).dedup).Perm ((getKeys B ++ getKeys A).dedup) := by
  rw [List.perm_ext_iff_of_nodup (List.nodup_dedup _) (List.nodup_dedup _)]
  intro k
  simp [List.mem_dedup, List.mem_append, or_comm]

theorem swapEntryTyp_eq_delete (t : ChangeTyp) :
    (swapEntryTyp t = .delete) = (t = .add) := by
  cases t <;> simp [swapEntryTyp]

theorem swapEntryTyp_eq_add (t : ChangeTyp) :
    (swapEntryTyp t = .add) = (t = .delete) := by
  cases t <;> simp [swapEntryTyp]

theorem swapEntryTyp_eq_modify (t : ChangeTyp) :
    (swapEntryTyp t = .modify) = (t = .modify) := by
  cases t <;> simp [swapEntryTyp]

/-- Bucket-level symmetry of diff, for inputs that do not both equal None:
each bucket of the reversed diff is a permutation of the swapped opposite
bucket. -/
theorem diffRun_swap (A B : Option PyObj) (cache : String → Option Meta)
    (h : ¬ (A = none ∧ B = none)) :
    ((diffRun B A cache).deleted).Perm ((diffRun A B cache).added.map swapChange) ∧
    ((diffRun B A cache).added).Perm ((diffRun A B cache).deleted.map swapChange) ∧
    ((diffRun B A cache).modified).Perm ((diffRun A B cache).modified.map swapChange) := by
  have h' : ¬ (B = none ∧ A = none) := fun hc => h ⟨hc.2, hc.1⟩
  have hfun : changeAt B A cache = swapChange ∘ changeAt A B cache :=
    funext (changeAt_swap A B cache)
  have hmap : ((getKeys B ++ getKeys A).dedup.map (changeAt A B cache)).Perm
      ((getKeys A ++ getKeys B).dedup.map (changeAt A B cache)) :=
    (diff_keys_perm B A).map _
  have hdel : ((fun c => decide (c.typ = ChangeTyp.delete)) ∘ swapChange) =
      (fun c => decide (c.typ = ChangeTyp.add)) := by
    funext c
    simp [swapChange, swapEntryTyp_eq_delete]
  have hadd : ((fun c => decide (c.typ = ChangeTyp.add)) ∘ swapChange) =
      (fun c => decide (c.typ = ChangeTyp.delete)) := by
    funext c
    simp [swapChange, swapEntryTyp_eq_add]
  have hmod : ((fun c => decide (c.typ = ChangeTyp.modify)) ∘ swapChange) =
      (fun c => decide (c.typ = ChangeTyp.modify)) := by
    funext c
    simp [swapChange, swapEntryTyp_eq_modify]
  simp only [diffRun, if_neg h, if_neg h']
  refine ⟨?_, ?_, ?_⟩
  · rw [hfun, ← List.map_map, List.filter_map, hdel]
    exact ((hmap.filter _).map _)
  · rw [hfun, ← List.map_map, List.filter_map, hadd]
    exact ((hmap.filter _).map _)
  · rw [hfun, ← List.map_map, List.filter_map, hmod]
    exact ((hmap.filter _).map _)

/-- Every per-key change of a diff of an object against itself is unchanged. -/
theorem changeAt_self_typ (A : Option PyObj) (cache : String → Option Meta) (k : TreeKey) :
    (changeAt A A cache k).typ = ChangeTyp.unchanged :=
  changeTyp_self _

/-- C3: diff is symmetric: the keys of `diff(A,B).added` are exactly the keys
of `diff(B,A).deleted` and vice versa (as sets — stated as permutations of the
key lists); `diff(B,A).modified` equals `diff(A,B).modified` with the old and
new entries of each change swapped (again up to permutation); and `diff(A,A)`
has empty added, modified and deleted buckets with every considered key
classified unchanged. -/
theorem c3_diff_symmetry (A B : Option PyObj) (cache : String → Option Meta) :
    (((diffRun A B cache).added.map fun c => c.new.key).Perm
        ((diffRun B A cache).deleted.map fun c => c.old.key)) ∧
    (((diffRun A B cache).deleted.map fun c => c.old.key).Perm
        ((diffRun B A cache).added.map fun c => c.new.key)) ∧
    ((diffRun B A cache).modified).Perm ((diffRun A B cache).modified.map swapChange) ∧
    (diffRun A A cache).added = [] ∧
    (diffRun A A cache).modified = [] ∧
    (diffRun A A cache).deleted = [] ∧
    ((diffRun A A cache).unchanged.map fun c => c.new.key) =
      (getKeys A ++ getKeys A).dedup := by
  have diag : (diffRun A A cache).added = [] ∧
      (diffRun A A cache).modified = [] ∧
      (diffRun A A cache).deleted = [] ∧
      ((diffRun A A cache).unchanged.map fun c => c.new.key) =
        (getKeys A ++ getKeys A).dedup := by
    by_cases hA : A = none
    · subst hA
      refine ⟨rfl, rfl, rfl, ?_⟩
      rfl
    · have hne : ¬ (A = none ∧ A = none) := fun hc => hA hc.1
      have hall : ∀ c ∈ (getKeys A ++ getKeys A).dedup.map (changeAt A A cache),
          c.typ = ChangeTyp.unchanged := by
        intro c hc
        obtain ⟨k, _, rfl⟩ := List.mem_map.1 hc
        exact changeAt_self_typ A cache k
      simp only [diffRun, if_neg hne]
      refine ⟨?_, ?_, ?_, ?_⟩
      · exact List.filter_eq_nil_iff.mpr (fun c hc => by simp [hall c hc])
      · exact List.filter_eq_nil_iff.mpr (fun c hc => by simp [hall c hc])
      · exact List.filter_eq_nil_iff.mpr (fun c hc => by simp [hall c hc])
      · rw [List.filter_eq_self.mpr (fun c hc => by simp [hall c hc])]
        rw [List.map_map]
        exact List.map_id _
  by_cases h : A = none ∧ B = none
  · obtain ⟨h1, h2⟩ := h
    subst h1; subst h2
    exact ⟨List.Perm.refl _, List.Perm.refl _, List.Perm.refl _, diag⟩
  · obtain ⟨hd, ha, hm⟩ := diffRun_swap A B cache h
    have e1 : ((diffRun A B cache).added.map swapChange).map (fun c => c.old.key) =
        (diffRun A B cache).added.map fun c => c.new.key := by
      rw [List.map_map]; rfl
    have e2 : ((diffRun A B cache).deleted.map swapChange).map (fun c => c.new.key) =
        (diffRun A B cache).deleted.map fun c => c.old.key := by
      rw [List.map_map]; rfl
    refine ⟨?_, ?_, hm, diag⟩
    · have := hd.map (fun c => c.old.key)
      rw [e1] at this
      exact this.symm
    · have := ha.map (fun c => c.new.key)
      rw [e2] at this
      exact this.symm

/-- Totality of the Python string comparison. -/
theorem lexLe_total : ∀ a b : List Char, lexLe a b = true ∨ lexLe b a = true
  | [], _ => Or.inl rfl
  | _ :: _, [] => Or.inr rfl
  | a :: as, b :: bs => by
    rcases lt_trichotomy a b with h | h | h
    · left; simp [lexLe, h]
    · subst h
      rcases lexLe_total as bs with ih | ih
      · left; simp [lexLe, lt_irrefl, ih]
      · right; simp [lexLe, lt_irrefl, ih]
    · right; simp [lexLe, h]

/-- Transitivity of the Python string comparison. -/
theorem lexLe_trans : ∀ a b c : List Char,
    lexLe a b = true → lexLe b c = true → lexLe a c = true
  | [], _, _ => fun _ _ => rfl
  | _ :: _, [], _ => fun h _ => by simp [lexLe] at h
  | _ :: _, _ :: _, [] => fun _ h => by simp [lexLe] at h
  | a :: as, b :: bs, c :: cs => fun h1 h2 => by
    rcases lt_trichotomy a b with hab | hab | hab
    · rcases lt_trichotomy b c with hbc | hbc | hbc
      · simp [lexLe, lt_trans hab hbc]
      · subst hbc; simp [lexLe, hab]
      · rw [lexLe, if_neg (lt_asymm hbc), if_pos hbc] at h2; cases h2
    · subst hab
      rcases lt_trichotomy a c with hac | hac | hac
      · simp [lexLe, hac]
      · subst hac
        rw [lexLe, if_neg (lt_irrefl a), if_neg (lt_irrefl a)] at h1 h2 ⊢
        exact lexLe_trans as bs cs h1 h2
      · rw [lexLe, if_neg (lt_asymm hac), if_pos hac] at h2; cases h2
    · rw [lexLe, if_neg (lt_asymm hab), if_pos hab] at h1; cases h1

/-- Antisymmetry of the Python string comparison. -/
theorem lexLe_antisymm : ∀ a b : List Char,
    lexLe a b = true → lexLe b a = true → a = b
  | [], [] => fun _ _ => rfl
  | [], _ :: _ => fun _ h2 => by simp [lexLe] at h2
  | _ :: _, [] => fun h1 _ => by simp [lexLe] at h1
  | a :: as, b :: bs => fun h1 h2 => by
    rcases lt_trichotomy a b with h | h | h
    · rw [lexLe, if_neg (lt_asymm h), if_pos h] at h2; cases h2
    · subst h
      rw [lexLe, if_neg (lt_irrefl a), if_neg (lt_irrefl a)] at h1 h2
      rw [lexLe_antisymm as bs h1 h2]
    · rw [lexLe, if_neg (lt_asymm h), if_pos h] at h1; cases h1

/-- Folding Python-dict inserts of fresh, pairwise-distinct keys appends. -/
theorem foldl_dictAdd_append : ∀ (l : List (TreeKey × TreeVal)) (d : List (TreeKey × TreeVal)),
    l.Pairwise (fun a b => a.1 ≠ b.1) →
    (∀ kv ∈ l, ∀ p ∈ d, p.1 ≠ kv.1) →
    l.foldl (fun d kv => dictAdd d kv.1 kv.2) d = d ++ l
  | [], d => by simp
  | kv :: rest, d => fun hpw hd => by
    have hnot : ¬ (d.any (fun p => decide (p.1 = kv.1)) = true) := by
      simp only [List.any_eq_true, decide_eq_true_eq, not_exists]
      intro p
      intro hc
      exact absurd hc.2 (hd kv (List.mem_cons_self kv rest) p hc.1)
    have hstep : dictAdd d kv.1 kv.2 = d ++ [kv] := by
      unfold dictAdd
      rw [if_neg hnot]
    rw [List.foldl_cons, hstep,
      foldl_dictAdd_append rest (d ++ [kv]) (List.pairwise_cons.1 hpw).2 ?_,
      List.append_assoc]
    · rfl
    · intro kv2 hkv2 p hp
      rcases List.mem_append.1 hp with hp | hp
      · exact hd kv2 (List.mem_cons_of_mem kv hkv2) p hp
      · rw [List.mem_singleton.1 hp]
        exact (List.pairwise_cons.1 hpw).1 kv2 hkv2

/-- When the added keys are pairwise distinct, the built `_dict` is the add
list itself. -/
theorem treeOfAdds_of_nodup_keys (l : List (TreeKey × TreeVal))
    (h : l.Pairwise (fun a b => a.1 ≠ b.1)) : treeOfAdds l = l := by
  have := foldl_dictAdd_append l [] h (by simp)
  simpa [treeOfAdds] using this

/-- The canonical serialized list is invariant under permuting the entries,
provided the entries' relpaths are pairwise distinct. -/
theorem asListEntries_perm_eq (l₁ l₂ : List (TreeKey × TreeVal))
    (hperm : l₁.Perm l₂)
    (hrel : l₁.Pairwise fun a b => relpathOf a.1 ≠ relpathOf b.1) :
    asListEntries l₁ = asListEntries l₂ := by
  haveI : IsTotal SerEntry serRel := ⟨fun _ _ => lexLe_total _ _⟩
  haveI : IsTrans SerEntry serRel := ⟨fun _ _ _ => lexLe_trans _ _ _⟩
  have hsymm : ∀ {x y : SerEntry}, x.relpath ≠ y.relpath → y.relpath ≠ x.relpath :=
    fun h e => h e.symm
  have hp : (l₁.map serOfEntry).Perm (l₂.map serOfEntry) := hperm.map _
  have hne₁ : (l₁.map serOfEntry).Pairwise (fun a b => a.relpath ≠ b.relpath) :=
    List.pairwise_map.mpr hrel
  have hne₂ : (l₂.map serOfEntry).Pairwise (fun a b => a.relpath ≠ b.relpath) :=
    (hp.pairwise_iff hsymm).1 hne₁
  have hs₁ : (List.insertionSort serRel (l₁.map serOfEntry)).Pairwise serRel :=
    List.sorted_insertionSort serRel _
  have hs₂ : (List.insertionSort serRel (l₂.map serOfEntry)).Pairwise serRel :=
    List.sorted_insertionSort serRel _
  have hne₁' : (List.insertionSort serRel (l₁.map serOfEntry)).Pairwise
      (fun a b => a.relpath ≠ b.relpath) :=
    ((List.perm_insertionSort serRel _).pairwise_iff hsymm).2 hne₁
  have hne₂' : (List.insertionSort serRel (l₂.map serOfEntry)).Pairwise
      (fun a b => a.relpath ≠ b.relpath) :=
    ((List.perm_insertionSort serRel _).pairwise_iff hsymm).2 hne₂
  have hanti : IsAntisymm SerEntry (fun a b => serRel a b ∧ a.relpath ≠ b.relpath) := by
    refine ⟨fun a b h1 h2 => absurd ?_ h1.2⟩
    exact congrArg String.mk (lexLe_antisymm _ _ h1.1 h2.1)
  exact @List.eq_of_perm_of_sorted SerEntry
    (fun a b => serRel a b ∧ a.relpath ≠ b.relpath) hanti _ _
    ((List.perm_insertionSort serRel _).trans
      (hp.trans (List.perm_insertionSort serRel _).symm))
    (hs₁.and hne₁') (hs₂.and hne₂')

/-- C1 counterexample: the claim as stated is false.  Take the two-entry set
consisting of `c1entryA` (key ("a","b")) and `c1entryB` (key ("a/b",)): the
keys are distinct but serialize to the same canonical posix relpath "a/b", so
`as_list`'s sort by relpath cannot separate them and Python's stable sort
preserves insertion order.  The two insertion orders are permutations of the
same entries, yet the canonical serialized bytes differ, hence `Tree.digest`
yields different HashInfo values — exhibited with the digest algorithm
instantiated to the identity on the hashed bytes (md5 likewise differs on
different input bytes). -/
theorem c1_counterexample :
    ([c1entryA, c1entryB] : List (TreeKey × TreeVal)).Perm [c1entryB, c1entryA] ∧
    c1entryA.1 ≠ c1entryB.1 ∧
    relpathOf c1entryA.1 = relpathOf c1entryB.1 ∧
    digestValue hashId (treeOfAdds [c1entryA, c1entryB]) ≠
      digestValue hashId (treeOfAdds [c1entryB, c1entryA]) :=
  ⟨List.Perm.swap c1entryB c1entryA [], by decide, by decide, by decide⟩

/-- C1 (amended): for every finite set of tree entries and all permutations of
the order in which those entries are added via `Tree.add`, `Tree.digest`
produces an identical HashInfo — provided distinct keys have distinct
canonical posix relpaths (as is the case for genuine path keys, whose
components do not contain the separator); the digest algorithm is an arbitrary
function of the canonical serialized bytes. -/
theorem c1_amended_digest_deterministic (l₁ l₂ : List (TreeKey × TreeVal))
    (hperm : l₁.Perm l₂)
    (hrel : l₁.Pairwise fun a b => relpathOf a.1 ≠ relpathOf b.1)
    (H : String → String) :
    digestValue H (treeOfAdds l₁) = digestValue H (treeOfAdds l₂) := by
  have hkey₁ : l₁.Pairwise (fun a b => a.1 ≠ b.1) :=
    hrel.imp (fun h hk => h (congrArg relpathOf hk))
  have hkey₂ : l₂.Pairwise (fun a b => a.1 ≠ b.1) :=
    (hperm.pairwise_iff (fun {x y} h e => h e.symm)).1 hkey₁
  rw [treeOfAdds_of_nodup_keys l₁ hkey₁, treeOfAdds_of_nodup_keys l₂ hkey₂]
  unfold digestValue asBytesStr
  rw [asListEntries_perm_eq l₁ l₂ hperm hrel]

/-- C1 witness: the amended theorem applied to a concrete two-entry tree with
distinct relpaths, under both insertion orders. -/
theorem c1_witness :
    ([c1w1, c1w2] : List (TreeKey × TreeVal)).Perm [c1w2, c1w1] ∧
    ([c1w1, c1w2] : List (TreeKey × TreeVal)).Pairwise
      (fun a b => relpathOf a.1 ≠ relpathOf b.1) ∧
    digestValue hashId (treeOfAdds [c1w1, c1w2]) =
      digestValue hashId (treeOfAdds [c1w2, c1w1]) :=
  ⟨List.Perm.swap c1w2 c1w1 [], by decide,
    c1_amended_digest_deterministic [c1w1, c1w2] [c1w2, c1w1]
      (List.Perm.swap c1w2 c1w1 []) (by decide) hashId⟩

/-- The file-id pool after one directory iteration: the entries of the
processed directory are removed. -/
theorem processDir_fileIds (tree : HashInfo → List HashInfo) (ok : HashInfo → Bool)
    (missing : List HashInfo) (st : XferState) (dh : HashInfo) :
    (processDir tree ok missing st dh).fileIds =
      st.fileIds.filter (fun o => decide (o ∉ tree dh)) := by
  unfold processDir
  dsimp only
  split_ifs <;> rfl

/-- Failures are only added, never removed, by a directory iteration. -/
theorem processDir_failed_mono (tree : HashInfo → List HashInfo) (ok : HashInfo → Bool)
    (missing : List HashInfo) (st : XferState) (dh : HashInfo) :
    ∀ x ∈ st.failed, x ∈ (processDir tree ok missing st dh).failed := by
  intro x hx
  unfold processDir
  dsimp only
  split_ifs <;> simp [hx]

/-- Sent objects are only added, never removed, by a directory iteration. -/
theorem processDir_sent_mono (tree : HashInfo → List HashInfo) (ok : HashInfo → Bool)
    (missing : List HashInfo) (st : XferState) (dh : HashInfo) :
    ∀ x ∈ st.sent, x ∈ (processDir tree ok missing st dh).sent := by
  intro x hx
  unfold processDir
  dsimp only
  split_ifs <;> simp [hx]

/-- Everything a directory iteration sends is a previous state's file (a
bound constituent that `_add` copied) or the directory object itself. -/
theorem processDir_sent_cases (tree : HashInfo → List HashInfo) (ok : HashInfo → Bool)
    (missing : List HashInfo) (st : XferState) (dh : HashInfo) :
    ∀ x ∈ (processDir tree ok missing st dh).sent,
      x ∈ st.sent ∨ (x ∈ st.fileIds ∧ ok x = true) ∨ x = dh := by
  intro x hx
  unfold processDir at hx
  dsimp only at hx
  split_ifs at hx <;> simp only [List.mem_append, List.mem_filter,
    List.mem_singleton] at hx <;> tauto

/-- Failures only grow along the directory loop. -/
theorem fold_failed_mono (tree : HashInfo → List HashInfo) (ok : HashInfo → Bool)
    (missing : List HashInfo) :
    ∀ (ds : List HashInfo) (st : XferState), ∀ x ∈ st.failed,
      x ∈ (ds.foldl (processDir tree ok missing) st).failed
  | [], _ => fun _ hx => hx
  | dh :: rest, st => fun x hx =>
    fold_failed_mono tree ok missing rest _ x
      (processDir_failed_mono tree ok missing st dh x hx)

/-- Sent objects only grow along the directory loop. -/
theorem fold_sent_mono (tree : HashInfo → List HashInfo) (ok : HashInfo → Bool)
    (missing : List HashInfo) :
    ∀ (ds : List HashInfo) (st : XferState), ∀ x ∈ st.sent,
      x ∈ (ds.foldl (processDir tree ok missing) st).sent
  | [], _ => fun _ hx => hx
  | dh :: rest, st => fun x hx =>
    fold_sent_mono tree ok missing rest _ x
      (processDir_sent_mono tree ok missing st dh x hx)

/-- The file-id pool only shrinks along the directory loop. -/
theorem fold_fileIds_sub (tree : HashInfo → List HashInfo) (ok : HashInfo → Bool)
    (missing : List HashInfo) :
    ∀ (ds : List HashInfo) (st : XferState), ∀ x,
      x ∈ (ds.foldl (processDir tree ok missing) st).fileIds → x ∈ st.fileIds
  | [], _ => fun _ hx => hx
  | dh :: rest, st => fun x hx => by
    have := fold_fileIds_sub tree ok missing rest _ x hx
    rw [processDir_fileIds] at this
    exact (List.mem_filter.1 this).1

/-- An object that is neither a pending file nor an upcoming directory id is
never sent by the remaining loop. -/
theorem fold_sent_not_mem (tree : HashInfo → List HashInfo) (ok : HashInfo → Bool)
    (missing : List HashInfo) (d : HashInfo) :
    ∀ (ds : List HashInfo) (st : XferState), d ∉ ds → d ∉ st.sent → d ∉ st.fileIds →
      d ∉ (ds.foldl (processDir tree ok missing) st).sent
  | [], _ => fun _ hs _ => hs
  | dh :: rest, st => fun hds hs hf => by
    have hne : d ≠ dh := fun e => hds (e ▸ List.mem_cons_self dh rest)
    have hs1 : d ∉ (processDir tree ok missing st dh).sent := fun hx => by
      rcases processDir_sent_cases tree ok missing st dh d hx with h | h | h
      · exact hs h
      · exact hf h.1
      · exact hne h
    have hf1 : d ∉ (processDir tree ok missing st dh).fileIds := fun hx => by
      rw [processDir_fileIds] at hx
      exact hf (List.mem_filter.1 hx).1
    exact fold_sent_not_mem tree ok missing d rest _
      (fun hx => hds (List.mem_cons_of_mem dh hx)) hs1 hf1

/-- A file that belongs to none of the remaining directories' trees survives
the loop in the file-id pool. -/
theorem fold_fileIds_preserve (tree : HashInfo → List HashInfo) (ok : HashInfo → Bool)
    (missing : List HashInfo) (f : HashInfo) :
    ∀ (ds : List HashInfo) (st : XferState), (∀ d' ∈ ds, f ∉ tree d') →
      f ∈ st.fileIds → f ∈ (ds.foldl (processDir tree ok missing) st).fileIds
  | [], _ => fun _ hf => hf
  | dh :: rest, st => fun hnd hf => by
    refine fold_fileIds_preserve tree ok missing f rest _
      (fun d' hd' => hnd d' (List.mem_cons_of_mem dh hd')) ?_
    rw [processDir_fileIds]
    exact List.mem_filter.2 ⟨hf, by simpa using hnd dh (List.mem_cons_self dh rest)⟩

/-- Every bound constituent that `_add` copies is in the sent set after the
iteration, whichever branch is taken. -/
theorem processDir_sent_super (tree : HashInfo → List HashInfo) (ok : HashInfo → Bool)
    (missing : List HashInfo) (st : XferState) (dh : HashInfo) :
    ∀ x ∈ (st.fileIds.filter (fun o => decide (o ∈ tree dh))).filter (fun o => ok o),
      x ∈ (processDir tree ok missing st dh).sent := by
  intro x hx
  unfold processDir
  dsimp only
  split_ifs <;>
    first
      | exact List.mem_append_right st.sent hx
      | exact List.mem_append_left _ (List.mem_append_right st.sent hx)

/-- When a bound constituent of the processed directory fails, the iteration
takes the failure branch: the constituent and the directory oid join the
failed set and the directory oid is not sent. -/
theorem processDir_fail_branch (tree : HashInfo → List HashInfo) (ok : HashInfo → Bool)
    (missing : List HashInfo) (st : XferState) (d f : HashInfo)
    (hf : f ∈ st.fileIds) (hft : f ∈ tree d) (hok : ok f = false) :
    f ∈ (processDir tree ok missing st d).failed ∧
    d ∈ (processDir tree ok missing st d).failed ∧
    ∀ x ∈ (processDir tree ok missing st d).sent, x ∈ st.sent ∨ x ∈ st.fileIds := by
  have hmem : f ∈ (st.fileIds.filter (fun o => decide (o ∈ tree d))).filter
      (fun o => decide ¬(ok o = true)) :=
    List.mem_filter.2 ⟨List.mem_filter.2 ⟨hf, by simpa using hft⟩, by simp [hok]⟩
  have hne : (st.fileIds.filter (fun o => decide (o ∈ tree d))).filter
      (fun o => decide ¬(ok o = true)) ≠ [] := List.ne_nil_of_mem hmem
  unfold processDir
  dsimp only
  rw [if_pos hne]
  refine ⟨by simp [hf, hok, hft], by simp, ?_⟩
  intro x hx
  rcases List.mem_append.1 hx with h | h
  · exact Or.inl h
  · exact Or.inr (List.mem_filter.1 (List.mem_filter.1 h).1).1

/-- Core invariant of the directory loop of `_do_transfer`, for
pairwise-disjoint directory trees: a directory id that ends up sent had all
of its pending constituents copied successfully (and sent); and for every
pending constituent that fails, the directory id is not sent and both the
directory id and the failing constituent are in the failed set. -/
theorem fold_dir_invariant (tree : HashInfo → List HashInfo) (ok : HashInfo → Bool)
    (missing : List HashInfo) (d : HashInfo) :
    ∀ (ds : List HashInfo) (st : XferState), d ∈ ds → ds.Nodup →
      (∀ e₁ ∈ ds, ∀ e₂ ∈ ds, e₁ ≠ e₂ → ∀ x ∈ tree e₁, x ∉ tree e₂) →
      d ∉ st.fileIds → d ∉ st.sent →
      ((d ∈ (ds.foldl (processDir tree ok missing) st).sent →
        ∀ f ∈ st.fileIds, f ∈ tree d →
          ok f = true ∧ f ∈ (ds.foldl (processDir tree ok missing) st).sent) ∧
       (∀ f ∈ st.fileIds, f ∈ tree d → ok f = false →
        d ∉ (ds.foldl (processDir tree ok missing) st).sent ∧
        d ∈ (ds.foldl (processDir tree ok missing) st).failed ∧
        f ∈ (ds.foldl (processDir tree ok missing) st).failed)) := by
  intro ds
  induction ds with
  | nil => intro st hd; exact absurd hd (List.not_mem_nil d)
  | cons dh rest ih =>
    intro st hd hnodup hdisj hdf hds
    have hfold : (dh :: rest).foldl (processDir tree ok missing) st =
        rest.foldl (processDir tree ok missing) (processDir tree ok missing st dh) :=
      List.foldl_cons _ _
    rw [hfold]
    by_cases hdh : d = dh
    · subst hdh
      by_cases hall : ∀ f ∈ st.fileIds, f ∈ tree d → ok f = true
      · -- no pending constituent fails
        constructor
        · intro _ f hf hft
          refine ⟨hall f hf hft, ?_⟩
          refine fold_sent_mono tree ok missing rest _ f ?_
          refine processDir_sent_super tree ok missing st d f ?_
          exact List.mem_filter.2
            ⟨List.mem_filter.2 ⟨hf, by simpa using hft⟩, hall f hf hft⟩
        · intro f hf hft hok
          exact absurd (hall f hf hft) (by simp [hok])
      · -- some pending constituent fails: the failure branch is taken
        push_neg at hall
        obtain ⟨f₀, hf₀, hft₀, hok₀⟩ := hall
        have hok₀' : ok f₀ = false := by
          cases h : ok f₀
          · rfl
          · exact absurd h hok₀
        have hdn : d ∉ (processDir tree ok missing st d).sent := by
          intro hx
          rcases (processDir_fail_branch tree ok missing st d f₀ hf₀ hft₀ hok₀').2.2
              d hx with h | h
          · exact hds h
          · exact hdf h
        have hdf1 : d ∉ (processDir tree ok missing st d).fileIds := by
          rw [processDir_fileIds]
          intro hx
          exact hdf (List.mem_filter.1 hx).1
        have hnr : d ∉ rest := (List.nodup_cons.1 hnodup).1
        have hnot : d ∉ (rest.foldl (processDir tree ok missing)
            (processDir tree ok missing st d)).sent :=
          fold_sent_not_mem tree ok missing d rest _ hnr hdn hdf1
        constructor
        · intro hx
          exact absurd hx hnot
        · intro f hf hft hok
          have hb := processDir_fail_branch tree ok missing st d f hf hft hok
          exact ⟨hnot,
            fold_failed_mono tree ok missing rest _ d hb.2.1,
            fold_failed_mono tree ok missing rest _ f hb.1⟩
    · -- d is a later directory
      have hdrest : d ∈ rest := (List.mem_cons.1 hd).resolve_left hdh
      have hdhrest : dh ∉ rest := (List.nodup_cons.1 hnodup).1
      have hne : d ≠ dh := hdh
      have hdf1 : d ∉ (processDir tree ok missing st dh).fileIds := by
        rw [processDir_fileIds]
        intro hx
        exact hdf (List.mem_filter.1 hx).1
      have hds1 : d ∉ (processDir tree ok missing st dh).sent := by
        intro hx
        rcases processDir_sent_cases tree ok missing st dh d hx with h | h | h
        · exact hds h
        · exact hdf h.1
        · exact hne h
      have hdisj1 : ∀ e₁ ∈ rest, ∀ e₂ ∈ rest, e₁ ≠ e₂ → ∀ x ∈ tree e₁, x ∉ tree e₂ :=
        fun e₁ h₁ e₂ h₂ =>
          hdisj e₁ (List.mem_cons_of_mem dh h₁) e₂ (List.mem_cons_of_mem dh h₂)
      have hbridge : ∀ f ∈ st.fileIds, f ∈ tree d →
          f ∈ (processDir tree ok missing st dh).fileIds := by
        intro f hf hft
        rw [processDir_fileIds]
        refine List.mem_filter.2 ⟨hf, ?_⟩
        have : f ∉ tree dh :=
          hdisj d hd dh (List.mem_cons_self dh rest) hne f hft
        simpa using this
      obtain ⟨iha, ihb⟩ := ih (processDir tree ok missing st dh) hdrest
        (List.nodup_cons.1 hnodup).2 hdisj1 hdf1 hds1
      constructor
      · intro hx f hf hft
        exact iha hx f (hbridge f hf hft) hft
      · intro f hf hft hok
        exact ihb f (hbridge f hf hft) hft hok

/-- C2 counterexample: the claim as stated is false.  Transfer the id set
{c2dir1, c2dir2, c2file} where both directories' trees contain exactly the
shared constituent c2file and copying c2file fails.  The directory iterated
first binds the shared file (`file_ids -= entry_ids`) and fails; when the
other directory is processed its bound set is empty, so its `.dir` object is
uploaded even though its constituent was neither transferred nor present, and
that directory's oid is missing from the failed set. -/
theorem c2_counterexample :
    c2file ∈ c2tree c2dir2 ∧ c2ok c2file = false ∧
    c2dir2 ∈ (doTransferRun c2tree c2ok [c2dir1, c2dir2, c2file] []).sent ∧
    c2dir2 ∉ (doTransferRun c2tree c2ok [c2dir1, c2dir2, c2file] []).failed ∧
    c2file ∉ (doTransferRun c2tree c2ok [c2dir1, c2dir2, c2file] []).sent := by
  decide

/-- C2 (amended): in `_do_transfer`, provided no two directory ids in the
batch share a constituent oid (each file oid belongs to at most one
directory's tree): a directory object is transferred only if every
constituent file oid of it that was in the batch was itself successfully
transferred; and if any such constituent transfer fails, the directory object
is not transferred and the directory's oid plus every failed constituent oid
appear in the returned failed set.  (Constituents outside the batch were
reported present at the destination by the compare-status step.)  This holds
for every iteration order of the Python sets. -/
theorem c2_amended_dir_transfer_invariant
    (tree : HashInfo → List HashInfo) (ok : HashInfo → Bool)
    (objIds : List HashInfo) (missing : List HashInfo) (d : HashInfo)
    (hd : d ∈ objIds) (hdir : d.isdir = true)
    (hnodup : (objIds.filter (fun h => h.isdir)).Nodup)
    (hdisj : ∀ e₁ ∈ objIds.filter (fun h => h.isdir),
      ∀ e₂ ∈ objIds.filter (fun h => h.isdir), e₁ ≠ e₂ →
        ∀ x ∈ tree e₁, x ∉ tree e₂) :
    ((d ∈ (doTransferRun tree ok objIds missing).sent →
      ∀ f ∈ objIds, f.isdir = false → f ∈ tree d →
        ok f = true ∧ f ∈ (doTransferRun tree ok objIds missing).sent) ∧
     (∀ f ∈ objIds, f.isdir = false → f ∈ tree d → ok f = false →
      d ∉ (doTransferRun tree ok objIds missing).sent ∧
      d ∈ (doTransferRun tree ok objIds missing).failed ∧
      f ∈ (doTransferRun tree ok objIds missing).failed)) := by
  have hdF0 : d ∉ ((objIds.filter (fun h => ¬ h.isdir)).dedup : List HashInfo) := by
    intro hx
    have := (List.mem_filter.1 (List.mem_dedup.1 hx)).2
    simp [hdir] at this
  have hinv := fold_dir_invariant tree ok missing d
    (objIds.filter (fun h => h.isdir))
    ⟨(objIds.filter (fun h => ¬ h.isdir)).dedup, [], []⟩
    (List.mem_filter.2 ⟨hd, hdir⟩) hnodup hdisj hdF0 (List.not_mem_nil d)
  obtain ⟨iha, ihb⟩ := hinv
  have hfile : ∀ f ∈ objIds, f.isdir = false →
      f ∈ ((objIds.filter (fun h => ¬ h.isdir)).dedup : List HashInfo) := by
    intro f hf hfd
    exact List.mem_dedup.2 (List.mem_filter.2 ⟨hf, by simp [hfd]⟩)
  have hdleft : ∀ p : HashInfo → Bool, d ∉
      ((objIds.filter (fun h => h.isdir)).foldl (processDir tree ok missing)
        ⟨(objIds.filter (fun h => ¬ h.isdir)).dedup, [], []⟩).fileIds.filter p := by
    intro p hx
    exact hdF0 (fold_fileIds_sub tree ok missing _ _ d (List.mem_filter.1 hx).1)
  simp only [doTransferRun]
  constructor
  · intro hx f hf hfd hft
    have hsent : d ∈ ((objIds.filter (fun h => h.isdir)).foldl
        (processDir tree ok missing)
        ⟨(objIds.filter (fun h => ¬ h.isdir)).dedup, [], []⟩).sent := by
      rcases List.mem_append.1 hx with h | h
      · exact h
      · exact absurd h (hdleft _)
    obtain ⟨hok, hfs⟩ := iha hsent f (hfile f hf hfd) hft
    exact ⟨hok, List.mem_append_left _ hfs⟩
  · intro f hf hfd hft hok
    obtain ⟨h1, h2, h3⟩ := ihb f (hfile f hf hfd) hft hok
    refine ⟨?_, List.mem_append_left _ h2, List.mem_append_left _ h3⟩
    intro hx
    rcases List.mem_append.1 hx with h | h
    · exact h1 h
    · exact hdleft _ h

/-- C2 witness: the amended theorem applied to a one-directory batch whose
constituent transfer succeeds. -/
theorem c2_witness :
    c2dir1 ∈ ([c2dir1, c2file] : List HashInfo) ∧
    c2dir1.isdir = true ∧
    (([c2dir1, c2file] : List HashInfo).filter (fun h => h.isdir)).Nodup ∧
    (∀ e₁ ∈ ([c2dir1, c2file] : List HashInfo).filter (fun h => h.isdir),
      ∀ e₂ ∈ ([c2dir1, c2file] : List HashInfo).filter (fun h => h.isdir), e₁ ≠ e₂ →
        ∀ x ∈ c2tree e₁, x ∉ c2tree e₂) ∧
    (∀ f ∈ ([c2dir1, c2file] : List HashInfo), f.isdir = false → f ∈ c2tree c2dir1 →
      (fun _ => true : HashInfo → Bool) f = true ∧
      f ∈ (doTransferRun c2tree (fun _ => true) [c2dir1, c2file] []).sent) :=
  ⟨by decide, by decide, by decide, by decide,
    (c2_amended_dir_transfer_invariant c2tree (fun _ => true) [c2dir1, c2file] [] c2dir1
      (by decide) (by decide) (by decide) (by decide)).1 (by decide)⟩

/-- C10: for every collection of object ids, calling transfer with source and
destination ODBs that compare equal (same filesystem protocol, same root
path, same read-only flag) returns an empty transferred set and an empty
failed set; the result is independent of the status-comparison and copying
oracles, i.e. neither is consulted. -/
theorem c10_transfer_same_odb (src dest : OdbId)
    (h1 : src.protocol = dest.protocol) (h2 : src.path = dest.path)
    (h3 : src.read_only = dest.read_only)
    (compareStatus : Unit → StatusResult)
    (doXfer : List HashInfo → List HashInfo → List HashInfo) :
    transferRun src dest compareStatus doXfer = ([], []) := by
  have heq : src = dest := by
    cases src; cases dest
    simp_all
  simp [transferRun, heq]

/-- C10 witness: two ODB handles over the same local store location. -/
theorem c10_witness :
    (OdbId.mk ("file") ("/cache") false).protocol =
      (OdbId.mk ("file") ("/cache") false).protocol ∧
    transferRun (OdbId.mk ("file") ("/cache") false)
      (OdbId.mk ("file") ("/cache") false)
      (fun _ => ⟨[c2file], []⟩) (fun new _ => new) = ([], []) :=
  ⟨rfl, c10_transfer_same_odb _ _ rfl rfl rfl _ _⟩

/-- C4 counterexample: the claim as stated is false for `delete`.  On a
read-only ODB holding one object, `delete(oid)` performs the removal and
returns successfully — no PermissionError-class error is raised and the
store is mutated (`ObjectDB.delete` has no read-only check). -/
theorem c4_counterexample :
    (OdbState.mk true ["aabbcc"]).read_only = true ∧
    odbDelete (OdbState.mk true ["aabbcc"]) ("aabbcc") =
      .ok (OdbState.mk true []) := by
  constructor
  · rfl
  · rfl

/-- C4 (amended): on every ODB constructed with read_only=true, `add` and
`add_bytes` raise the PermissionError-class error before any mutation, so the
store is unchanged; `delete`, however, performs the removal without
consulting the read-only flag (and raises only the filesystem's
FileNotFoundError for a missing object). -/
theorem c4_amended_readonly_mutators (db : OdbState) (h : db.read_only = true)
    (oid : String) (oids : List String) (checkExists : Bool)
    (okCopy : String → Bool) :
    odbAddBytes db oid = .error .permissionError ∧
    odbAdd db oids checkExists okCopy = .error .permissionError ∧
    (oid ∈ db.store → odbDelete db oid =
      .ok ⟨db.read_only, db.store.filter (fun o => decide (o ≠ oid))⟩) := by
  refine ⟨?_, ?_, ?_⟩
  · simp [odbAddBytes, h]
  · simp [odbAdd, h]
  · intro hm
    simp [odbDelete, hm]

/-- C4 witness: the amended theorem at a concrete read-only store. -/
theorem c4_witness :
    (OdbState.mk true ["aabbcc"]).read_only = true ∧
    odbAddBytes (OdbState.mk true ["aabbcc"]) ("ddeeff") =
      .error .permissionError ∧
    odbAdd (OdbState.mk true ["aabbcc"]) ["ddeeff"] true (fun _ => true) =
      .error .permissionError ∧
    (("aabbcc" : String) ∈ (OdbState.mk true ["aabbcc"]).store →
      odbDelete (OdbState.mk true ["aabbcc"]) ("aabbcc") =
        .ok ⟨(OdbState.mk true ["aabbcc"]).read_only,
          (OdbState.mk true ["aabbcc"]).store.filter
            (fun o => decide (o ≠ ("aabbcc" : String)))⟩) := by
  have h1 := c4_amended_readonly_mutators (OdbState.mk true ["aabbcc"]) rfl
    ("ddeeff") ["ddeeff"] true (fun _ => true)
  have h2 := c4_amended_readonly_mutators (OdbState.mk true ["aabbcc"]) rfl
    ("aabbcc") ["ddeeff"] true (fun _ => true)
  exact ⟨rfl, h1.1, h1.2.1, h2.2.2⟩

/-- C5 counterexample: the claim as stated is false.  With two added file
entries where materializing p1 hits an OSError in the link strategy (a
LinkError) and p2 would succeed: the LinkError is not caught by the loop's
`except CheckoutError` clause, so the run ends with a LinkError — not an
aggregate CheckoutError — and the remaining entry p2 is never processed. -/
theorem c5_counterexample :
    (ckCheckout c5outcome [⟨"p1", false⟩, ⟨"p2", false⟩]).exc =
      some (.linkError ("p1")) ∧
    ("p2" : String) ∉ (ckCheckout c5outcome [⟨"p1", false⟩, ⟨"p2", false⟩]).attempted := by
  decide

/-- With no OSError outcome among the entries, the checkout loop visits every
entry and collects exactly the FileNotFound failures, in order. -/
theorem ckLoop_no_os (outcome : String → LinkOutcome) :
    ∀ (es : List CkEntry) (att failed : List String),
      (∀ e ∈ es, outcome e.path ≠ .osError) →
      ckLoop outcome es att failed =
        ⟨att ++ es.map CkEntry.path,
         failed ++ (es.filter
           (fun e => ¬ e.isdir ∧ outcome e.path = .fileNotFound)).map CkEntry.path,
         none⟩
  | [], att, failed => fun _ => by simp [ckLoop]
  | e :: rest, att, failed => fun hno => by
    have hrest : ∀ x ∈ rest, outcome x.path ≠ .osError :=
      fun x hx => hno x (List.mem_cons_of_mem e hx)
    have ih := ckLoop_no_os outcome rest
    by_cases hdir : e.isdir
    · simp only [ckLoop, if_pos hdir, ih (att ++ [e.path]) failed hrest]
      simp [hdir]
    · cases houtc : outcome e.path with
      | ok =>
        simp only [ckLoop, if_neg hdir, houtc, ih (att ++ [e.path]) failed hrest]
        simp [hdir, houtc]
      | fileNotFound =>
        simp only [ckLoop, if_neg hdir, houtc,
          ih (att ++ [e.path]) (failed ++ [e.path]) hrest]
        simp [hdir, houtc]
      | osError => exact absurd houtc (hno e (List.mem_cons_self e rest))

/-- C5 (amended): during a checkout batch in which no entry hits a failed
link strategy (no OSError/LinkError), every per-entry materialization failure
surfaced as CheckoutError (a missing cache file) is collected rather than
immediately raised, all entries are processed, and at the end a single
CheckoutError is raised whose paths list names exactly the failed entries —
while a LinkError, by contrast, aborts the batch at once (see the
counterexample). -/
theorem c5_amended_checkout_aggregation (outcome : String → LinkOutcome)
    (entries : List CkEntry)
    (hno : ∀ e ∈ entries, outcome e.path ≠ .osError) :
    (ckCheckout outcome entries).attempted = entries.map CkEntry.path ∧
    (ckCheckout outcome entries).failedPaths =
      (entries.filter
        (fun e => ¬ e.isdir ∧ outcome e.path = .fileNotFound)).map CkEntry.path ∧
    ((ckCheckout outcome entries).failedPaths = [] →
      (ckCheckout outcome entries).exc = none) ∧
    ((ckCheckout outcome entries).failedPaths ≠ [] →
      (ckCheckout outcome entries).exc =
        some (.checkoutError (ckCheckout outcome entries).failedPaths)) := by
  have hrun := ckLoop_no_os outcome entries [] [] hno
  unfold ckCheckout
  dsimp only
  rw [hrun]
  simp only [List.nil_append]
  by_cases hf : ((entries.filter
      (fun e => ¬ e.isdir ∧ outcome e.path = .fileNotFound)).map CkEntry.path) = []
  · rw [if_neg (fun hc => hc hf)]
    exact ⟨rfl, rfl, fun _ => rfl, fun hne => absurd hf hne⟩
  · rw [if_pos hf]
    exact ⟨rfl, rfl, fun h => absurd h hf, fun _ => rfl⟩

/-- C5 witness: the amended theorem at a concrete batch with one failing and
one directory entry. -/
theorem c5_witness :
    (∀ e ∈ ([⟨"q1", false⟩, ⟨"q2", true⟩] : List CkEntry),
      (fun p => if p = ("q1" : String) then LinkOutcome.fileNotFound else .ok) e.path ≠
        .osError) ∧
    (ckCheckout (fun p => if p = ("q1" : String) then LinkOutcome.fileNotFound else .ok)
        [⟨"q1", false⟩, ⟨"q2", true⟩]).exc =
      some (.checkoutError ["q1"]) :=
  ⟨by decide, by
    have h := c5_amended_checkout_aggregation
      (fun p => if p = ("q1" : String) then LinkOutcome.fileNotFound else .ok)
      [⟨"q1", false⟩, ⟨"q2", true⟩] (by decide)
    rw [h.2.2.2 (by rw [h.2.1]; decide), h.2.1]
    decide⟩

/-- C7: for every oid whose stored bytes re-hash to a value whose component
before the first '.' differs from the corresponding component of the oid,
check(oid) with hash verification deletes the stored file and raises
ObjectFormatError; when the prefix components match, check returns the Meta
of the stored object without error and leaves the store unchanged. -/
theorem c7_check_hash_verification (H : String → String) (metaOf : String → Meta)
    (store : List (String × String)) (oid bytes : String)
    (hfound : (store.find? (fun p => decide (p.1 = oid))).map Prod.snd = some bytes) :
    (primaryPart (H bytes) ≠ primaryPart oid →
      hfdbCheck H metaOf store oid =
        (.error .objectFormatError, store.filter (fun p => decide (p.1 ≠ oid)))) ∧
    (primaryPart (H bytes) = primaryPart oid →
      hfdbCheck H metaOf store oid = (.ok (metaOf bytes), store)) := by
  unfold hfdbCheck
  rw [hfound]
  dsimp only
  constructor
  · intro h
    rw [if_pos h]
  · intro h
    rw [if_neg (fun hc => hc h)]

/-- C7 witness: the theorem at a concrete store, once with a matching re-hash
(Meta returned, store kept) and once with a corrupted object (deletion plus
ObjectFormatError). -/
theorem c7_witness :
    ((([("ab", "good")] : List (String × String)).find?
        (fun p => decide (p.1 = ("ab" : String)))).map Prod.snd = some ("good")) ∧
    hfdbCheck (fun b => if b = ("good" : String) then "ab.dir" else "zz")
        (fun _ => {}) [("ab", "good")] ("ab") =
      (.ok ({} : Meta), [("ab", "good")]) ∧
    hfdbCheck (fun b => if b = ("good" : String) then "ab.dir" else "zz")
        (fun _ => {}) [("ab", "bad")] ("ab") =
      (.error .objectFormatError, []) := by
  refine ⟨by decide, ?_, ?_⟩
  · have h := (c7_check_hash_verification
      (fun b => if b = ("good" : String) then "ab.dir" else "zz")
      (fun _ => {}) [("ab", "good")] ("ab") ("good") (by decide)).2 (by decide)
    rw [h]
  · have h := (c7_check_hash_verification
      (fun b => if b = ("good" : String) then "ab.dir" else "zz")
      (fun _ => {}) [("ab", "bad")] ("ab") ("bad") (by decide)).1 (by decide)
    rw [h]
    rfl

/-- takeWhile over a block that satisfies the predicate followed by an
element that fails it. -/
theorem takeWhile_block (q : Char → Bool) :
    ∀ (l₁ : List Char) (a : Char) (l₂ : List Char),
      (∀ x ∈ l₁, q x = true) → q a = false →
      (l₁ ++ a :: l₂).takeWhile q = l₁
  | [], a, l₂ => fun _ ha => by simp [List.takeWhile_cons, ha]
  | x :: l₁, a, l₂ => fun hall ha => by
    have hx : q x = true := hall x (List.mem_cons_self x l₁)
    simp only [List.cons_append, List.takeWhile_cons, hx, if_true]
    rw [takeWhile_block q l₁ a l₂ (fun y hy => hall y (List.mem_cons_of_mem x hy)) ha]

/-- Stripping trailing separators is the identity on a path ending in a
non-separator. -/
theorem rstripSep_of_last_nonsep (p : List Char) (x : Char)
    (hl : p.getLast? = some x) (hx : ¬ isSep x = true) : rstripSep p = p := by
  unfold rstripSep
  have hrev : p.reverse.head? = some x := by
    rw [List.head?_reverse]
    exact hl
  cases hp : p.reverse with
  | nil => simp [hp] at hrev
  | cons y t =>
    have hy : y = x := by
      rw [hp] at hrev
      exact (Option.some_inj.1 hrev).symm ▸ rfl
    subst hy
    rw [List.dropWhile_cons, if_neg hx, ← hp, List.reverse_reverse]

/-- A clean component ends in a non-separator. -/
theorem clean_getLast (c : List Char) (hc : cleanComp c) :
    ∃ x, ¬ isSep x = true ∧ c.getLast? = some x := by
  refine ⟨c.getLast hc.1, ?_, List.getLast?_eq_getLast c hc.1⟩
  exact hc.2 _ (List.getLast_mem hc.1)

/-- Dropping leading separators of the reversal of a path that ends in a
non-separator is the identity. -/
theorem dropWhile_isSep_reverse (p : List Char) (x : Char)
    (hl : p.getLast? = some x) (hx : ¬ isSep x = true) :
    p.reverse.dropWhile isSep = p.reverse := by
  have hrev : p.reverse.head? = some x := by
    rw [List.head?_reverse]
    exact hl
  cases hp : p.reverse with
  | nil => rfl
  | cons y t =>
    rw [hp] at hrev
    have hy : y = x := Option.some_inj.1 hrev
    rw [List.dropWhile_cons, if_neg (hy ▸ hx)]

/-- Stripping the separator just appended to a path that ends in a
non-separator recovers the path. -/
theorem rstripSep_append_slash (p : List Char) (x : Char)
    (hl : p.getLast? = some x) (hx : ¬ isSep x = true) :
    rstripSep (p ++ ['/']) = p := by
  unfold rstripSep
  rw [List.reverse_append]
  show (List.dropWhile isSep ('/' :: p.reverse)).reverse = p
  rw [List.dropWhile_cons, if_pos (show isSep '/' = true from rfl),
    dropWhile_isSep_reverse p x hl hx, List.reverse_reverse]

/-- psplit splits off a final clean component after a separator; the head is
the prefix up to the last non-separator. -/
theorem psplit_append (p c : List Char) (x : Char)
    (hl : p.getLast? = some x) (hx : ¬ isSep x = true) (hc : cleanComp c) :
    psplit (p ++ '/' :: c) = (p, c) := by
  have hmem : x ∈ p := List.mem_of_getLast?_eq_some hl
  have hrevapp : (p ++ '/' :: c).reverse = c.reverse ++ '/' :: p.reverse := by
    rw [List.reverse_append, List.reverse_cons, List.append_assoc, List.singleton_append]
  have htake : (p ++ '/' :: c).reverse.takeWhile (fun ch => ! isSep ch) = c.reverse := by
    rw [hrevapp]
    exact takeWhile_block _ c.reverse '/' p.reverse
      (fun y hy => by simp [hc.2 y (List.mem_reverse.1 hy)])
      (by simp [isSep])
  unfold psplit
  dsimp only
  rw [htake, List.reverse_reverse]
  have hlen : (p ++ '/' :: c).length - c.length = p.length + 1 := by
    simp [List.length_append]
    omega
  have hsplit2 : p ++ '/' :: c = (p ++ ['/']) ++ c := by simp
  have hheadeq : (p ++ '/' :: c).take ((p ++ '/' :: c).length - c.length) = p ++ ['/'] := by
    rw [hlen, hsplit2]
    exact List.take_left' (by simp)
  rw [hheadeq]
  rw [if_pos ⟨by simp, List.any_eq_true.2 ⟨x, List.mem_append_left _ hmem, by simp [hx]⟩⟩]
  rw [rstripSep_append_slash p x hl hx]

/-- psplit of a one-component absolute path. -/
theorem psplit_base (c : List Char) (hc : cleanComp c) :
    psplit ('/' :: c) = (['/'], c) := by
  have htake : ('/' :: c).reverse.takeWhile (fun ch => ! isSep ch) = c.reverse := by
    rw [List.reverse_cons]
    have : c.reverse ++ ['/'] = c.reverse ++ '/' :: ([] : List Char) := rfl
    rw [this]
    exact takeWhile_block _ c.reverse '/' []
      (fun y hy => by simp [hc.2 y (List.mem_reverse.1 hy)])
      (by simp [isSep])
  unfold psplit
  dsimp only
  rw [htake, List.reverse_reverse]
  have hlen : ('/' :: c).length - c.length = 1 := by simp
  rw [hlen]
  have htake1 : ('/' :: c).take 1 = ['/'] := rfl
  rw [htake1]
  rw [if_neg (by simp [isSep])]

/-- The parts loop on the bare root separator pushes "/" and stops. -/
theorem partsLoopF_slash (f : Nat) (acc : List (List Char)) :
    partsLoopF (f + 1) ['/'] acc = ['/'] :: acc := rfl

/-- One productive step of the parts loop: a final clean component is
collected and the loop continues on the prefix. -/
theorem partsLoopF_step (f : Nat) (p c : List Char) (x : Char) (acc : List (List Char))
    (hl : p.getLast? = some x) (hx : ¬ isSep x = true) (hc : cleanComp c) :
    partsLoopF (f + 1) (p ++ '/' :: c) acc = partsLoopF f p (c :: acc) := by
  simp only [partsLoopF]
  rw [psplit_append p c x hl hx hc]
  dsimp only
  rw [if_pos hc.1]

/-- The first step of the parts loop on a one-component absolute path. -/
theorem partsLoopF_first (f : Nat) (c : List Char) (acc : List (List Char))
    (hc : cleanComp c) :
    partsLoopF (f + 1) ('/' :: c) acc = partsLoopF f ['/'] (c :: acc) := by
  simp only [partsLoopF]
  rw [psplit_base c hc]
  dsimp only
  rw [if_pos hc.1]

/-- Unfolding an intercalation at its first of at least two components. -/
theorem intercalate_cons₂ (a b : List Char) (l : List (List Char)) :
    List.intercalate ['/'] (a :: b :: l) = a ++ '/' :: List.intercalate ['/'] (b :: l) := by
  simp [List.intercalate, List.intersperse_cons₂, List.flatten_cons]

/-- Appending one more component to a separator-intercalated component
list. -/
theorem intercalate_append_singleton :
    ∀ (cs : List (List Char)) (c : List Char), cs ≠ [] →
      List.intercalate ['/'] (cs ++ [c]) = List.intercalate ['/'] cs ++ '/' :: c
  | [], _ => fun h => absurd rfl h
  | [a], c => fun _ => by
    simp [List.intercalate]
  | a :: b :: cs, c => fun _ => by
    have ih := intercalate_append_singleton (b :: cs) c (by simp)
    have h1 : ((a :: b :: cs) ++ [c] : List (List Char)) = a :: b :: (cs ++ [c]) := rfl
    rw [h1, intercalate_cons₂, intercalate_cons₂,
      show (b :: (cs ++ [c]) : List (List Char)) = (b :: cs) ++ [c] from rfl, ih]
    simp

/-- The parts loop on a normalized absolute path collects the separator root
marker followed by the components. -/
theorem partsLoopF_root :
    ∀ (cs : List (List Char)), cs ≠ [] → (∀ c ∈ cs, cleanComp c) →
      (∃ x, ¬ isSep x = true ∧ ('/' :: List.intercalate ['/'] cs).getLast? = some x) ∧
      (∀ (f : Nat) (acc : List (List Char)),
        ('/' :: List.intercalate ['/'] cs).length ≤ f →
        partsLoopF f ('/' :: List.intercalate ['/'] cs) acc = ['/'] :: (cs ++ acc)) := by
  intro cs
  induction cs using List.reverseRecOn with
  | nil => intro h; exact absurd rfl h
  | append_singleton cs c ih =>
    intro _ hclean
    have hcmem : c ∈ cs ++ [c] := List.mem_append_right cs (List.mem_singleton.2 rfl)
    have hc : cleanComp c := hclean c hcmem
    obtain ⟨xc, hxc, hlc⟩ := clean_getLast c hc
    have hlastc : ('/' :: c).getLast? = some xc := by
      show ((['/'] : List Char) ++ c).getLast? = some xc
      rw [List.getLast?_append, hlc]
      rfl
    by_cases hcs : cs = []
    · subst hcs
      have hic : List.intercalate ['/'] ([c] : List (List Char)) = c := by
        simp [List.intercalate]
      rw [List.nil_append, hic]
      refine ⟨⟨xc, hxc, hlastc⟩, ?_⟩
      intro f acc hf
      have hf2 : 2 ≤ f := by
        have : 1 ≤ c.length := by
          cases hcc : c with
          | nil => exact absurd hcc hc.1
          | cons y t => simp
        simp only [List.length_cons] at hf
        omega
      obtain ⟨g, rfl⟩ : ∃ g, f = g + 2 := ⟨f - 2, by omega⟩
      rw [show g + 2 = (g + 1) + 1 from rfl, partsLoopF_first (g + 1) c acc hc,
        partsLoopF_slash g]
      rfl
    · have hcleancs : ∀ d ∈ cs, cleanComp d :=
        fun d hd => hclean d (List.mem_append_left [c] hd)
      obtain ⟨⟨x, hx, hl⟩, hloop⟩ := ih hcs hcleancs
      have hpath : ('/' :: List.intercalate ['/'] (cs ++ [c])) =
          ('/' :: List.intercalate ['/'] cs) ++ '/' :: c := by
        rw [intercalate_append_singleton cs c hcs]
        rfl
      rw [hpath]
      constructor
      · refine ⟨xc, hxc, ?_⟩
        rw [List.getLast?_append]
        show (('/' :: c).getLast?).or _ = some xc
        rw [hlastc]
        rfl
      · intro f acc hf
        have hlen1 : ('/' :: List.intercalate ['/'] cs).length + (c.length + 1) ≤ f := by
          have := hf
          simp only [List.length_append, List.length_cons] at this ⊢
          omega
        obtain ⟨g, rfl⟩ : ∃ g, f = g + 1 := ⟨f - 1, by omega⟩
        rw [partsLoopF_step g _ c x acc hl hx hc]
        rw [hloop g (c :: acc) (by omega)]
        simp

/-- `FileSystem.parts` of a normalized absolute path: the root marker
followed by the components. -/
theorem pparts_root (cs : List (List Char)) (hne : cs ≠ [])
    (hclean : ∀ c ∈ cs, cleanComp c) :
    pparts ('/' :: List.intercalate ['/'] cs) = ['/'] :: cs := by
  obtain ⟨⟨x, hx, hl⟩, hloop⟩ := partsLoopF_root cs hne hclean
  unfold pparts
  rw [rstripSep_of_last_nonsep _ x hl hx, hloop _ [] (Nat.le_succ _)]
  simp

/-- A clean component does not start with the separator. -/
theorem headNotSlash (s : List Char) (hs : cleanComp s) : s.head? ≠ some '/' := by
  intro hcon
  cases s with
  | nil => exact hs.1 rfl
  | cons y t =>
    have hy : y = '/' := Option.some_inj.1 hcon
    exact hs.2 y (List.mem_cons_self y t) (by rw [hy]; rfl)

/-- The last element of a path extended by a separator and a component. -/
theorem getLast_slash_comp (l s : List Char) (xs : Char) (hls : s.getLast? = some xs) :
    (l ++ '/' :: s).getLast? = some xs := by
  rw [List.getLast?_append]
  show (('/' :: s).getLast?).or _ = some xs
  rw [show ('/' :: s : List Char) = ['/'] ++ s from rfl, List.getLast?_append, hls]
  rfl

/-- posixpath.join of the root with the two shard components. -/
theorem pjoin_two (root s r : List Char) (x : Char)
    (hl : root.getLast? = some x) (hx : ¬ isSep x = true)
    (hs : cleanComp s) (hr : cleanComp r) :
    pjoin root [s, r] = (root ++ '/' :: s) ++ '/' :: r := by
  have hxslash : x ≠ '/' := fun e => hx (by rw [e]; rfl)
  obtain ⟨xs, hxs, hls⟩ := clean_getLast s hs
  have hxsslash : xs ≠ '/' := fun e => hxs (by rw [e]; rfl)
  have h1 : pjoin2 root s = root ++ '/' :: s := by
    unfold pjoin2
    rw [if_neg (headNotSlash s hs)]
    rw [if_neg ?hcond]
    case hcond =>
      rintro (hnil | hslash)
      · rw [hnil] at hl
        simp at hl
      · rw [hl] at hslash
        exact hxslash (Option.some_inj.1 hslash)
  have h2 : pjoin2 (root ++ '/' :: s) r = (root ++ '/' :: s) ++ '/' :: r := by
    unfold pjoin2
    rw [if_neg (headNotSlash r hr)]
    rw [if_neg ?hcond2]
    case hcond2 =>
      rintro (hnil | hslash)
      · simp at hnil
      · rw [getLast_slash_comp root s xs hls] at hslash
        exact hxsslash (Option.some_inj.1 hslash)
  show pjoin2 (pjoin2 root s) r = _
  rw [h1, h2]

/-- One normpath scan step appends a regular component. -/
theorem normStep_fold (iS : Nat) :
    ∀ (cs : List (List Char)) (acc : List (List Char)),
      (∀ c ∈ cs, c ≠ [] ∧ c ≠ ['.'] ∧ c ≠ ['.', '.']) →
      cs.foldl (normStep iS) acc = acc ++ cs
  | [], acc => fun _ => by simp
  | c :: rest, acc => fun h => by
    have hc := h c (List.mem_cons_self c rest)
    have hstep : normStep iS acc c = acc ++ [c] := by
      unfold normStep
      rw [if_neg (not_or.2 ⟨hc.1, hc.2.1⟩), if_pos (Or.inl hc.2.2)]
    rw [List.foldl_cons, hstep,
      normStep_fold iS rest (acc ++ [c]) (fun d hd => h d (List.mem_cons_of_mem c hd)),
      List.append_assoc]
    rfl

/-- posixpath.normpath is the identity on a normalized absolute path. -/
theorem pnormpath_root (cs : List (List Char)) (hne : cs ≠ [])
    (hgood : ∀ c ∈ cs, cleanComp c ∧ c ≠ ['.'] ∧ c ≠ ['.', '.']) :
    pnormpath ('/' :: List.intercalate ['/'] cs) = '/' :: List.intercalate ['/'] cs := by
  obtain ⟨c₀, rest, rfl⟩ : ∃ c₀ rest, cs = c₀ :: rest := by
    cases cs with
    | nil => exact absurd rfl hne
    | cons a l => exact ⟨a, l, rfl⟩
  have hc₀ : cleanComp c₀ := (hgood c₀ (List.mem_cons_self c₀ rest)).1
  obtain ⟨y₀, t₀, rfl⟩ : ∃ y₀ t₀, c₀ = y₀ :: t₀ := by
    cases hcc : c₀ with
    | nil => exact absurd hcc hc₀.1
    | cons a l => exact ⟨a, l, rfl⟩
  have hy₀ : y₀ ≠ '/' := fun e =>
    hc₀.2 y₀ (List.mem_cons_self y₀ t₀) (by rw [e]; rfl)
  have hhead : (List.intercalate ['/'] ((y₀ :: t₀) :: rest)).head? = some y₀ := by
    cases rest with
    | nil => simp [List.intercalate]
    | cons b l =>
      rw [intercalate_cons₂]
      rfl
  unfold pnormpath
  rw [if_neg (by simp)]
  dsimp only
  have htake2 : ('/' :: List.intercalate ['/'] ((y₀ :: t₀) :: rest)).take 2 =
      ['/', y₀] := by
    obtain ⟨l2, hl2⟩ : ∃ l2, List.intercalate ['/'] ((y₀ :: t₀) :: rest) = y₀ :: l2 := by
      cases hic : List.intercalate ['/'] ((y₀ :: t₀) :: rest) with
      | nil => rw [hic] at hhead; simp at hhead
      | cons a l =>
        rw [hic] at hhead
        exact ⟨l, by rw [Option.some_inj.1 hhead]⟩
    rw [hl2]
    rfl
  have hcond1 : ('/' :: List.intercalate ['/'] ((y₀ :: t₀) :: rest)).head? = some '/' := rfl
  rw [if_pos hcond1]
  have hIS : (if List.take 2 ('/' :: List.intercalate ['/'] ((y₀ :: t₀) :: rest)) =
        ['/', '/'] ∧
      List.take 3 ('/' :: List.intercalate ['/'] ((y₀ :: t₀) :: rest)) ≠
        ['/', '/', '/'] then 2 else 1) = 1 := by
    rw [if_neg]
    rw [htake2]
    simp [hy₀]
  rw [hIS]
  have hsplit : ('/' :: List.intercalate ['/'] ((y₀ :: t₀) :: rest)).splitOn '/' =
      [] :: ((y₀ :: t₀) :: rest) := by
    show (('/' :: List.intercalate ['/'] ((y₀ :: t₀) :: rest)).splitOnP (· == '/')) = _
    rw [List.splitOnP_cons, if_pos (by simp)]
    have hrest : (List.intercalate ['/'] ((y₀ :: t₀) :: rest)).splitOn '/' =
        (y₀ :: t₀) :: rest := by
      refine List.splitOn_intercalate ((y₀ :: t₀) :: rest) '/' ?_ (by simp)
      intro l hl hmem
      exact ((hgood l hl).1).2 '/' hmem rfl
    exact congrArg (List.cons []) hrest
  rw [hsplit, List.foldl_cons]
  have hstep0 : normStep 1 [] [] = [] := by
    unfold normStep
    rw [if_pos (Or.inl rfl)]
  rw [hstep0, normStep_fold 1 _ []
    (fun d hd => ⟨((hgood d hd).1).1, (hgood d hd).2.1, (hgood d hd).2.2⟩)]
  rw [List.nil_append]
  have hres : (List.replicate 1 '/' ++
      List.intercalate ['/'] ((y₀ :: t₀) :: rest) : List Char) ≠ [] := by simp
  rw [if_neg hres]
  rfl

/-- C6: over a normalized absolute ODB root, the sharded path mapping
round-trips both ways: `path_to_oid(oid_to_path(o)) = o` for every valid oid
(at least three separator-free characters, so shard and remainder are
nonempty), and `oid_to_path(path_to_oid(p)) = p` for every valid stored path
`root/ss/rest` (two-character separator-free shard directory plus nonempty
separator-free remainder). -/
theorem c6_path_oid_roundtrip (root : List Char) (cs : List (List Char))
    (hroot : goodRoot root cs) (oid : List Char)
    (hlen : 3 ≤ oid.length) (hsep : ∀ x ∈ oid, ¬ isSep x = true)
    (s r : List Char) (hs2 : s.length = 2) (hsc : ∀ x ∈ s, ¬ isSep x = true)
    (hrne : r ≠ []) (hrc : ∀ x ∈ r, ¬ isSep x = true) :
    pathToOid root (oidToPath root oid) = .ok oid ∧
    pathToOid root (pjoin root [s, r]) = .ok (s ++ r) ∧
    oidToPath root (s ++ r) = pjoin root [s, r] := by
  obtain ⟨hcs_ne, hgood, rfl⟩ := hroot
  have hclean_cs : ∀ c ∈ cs, cleanComp c := fun c hc => (hgood c hc).1
  obtain ⟨x, hx, hl⟩ := (partsLoopF_root cs hcs_ne hclean_cs).1
  have key : ∀ s' r' : List Char, cleanComp s' → s'.length = 2 → cleanComp r' →
      pathToOid ('/' :: List.intercalate ['/'] cs)
        (pjoin ('/' :: List.intercalate ['/'] cs) [s', r']) = .ok (s' ++ r') := by
    intro s' r' hs' hs'2 hr'
    have hjoin := pjoin_two ('/' :: List.intercalate ['/'] cs) s' r' x hl hx hs' hr'
    have hic2 : (('/' :: List.intercalate ['/'] cs) ++ '/' :: s' : List Char) =
        '/' :: List.intercalate ['/'] (cs ++ [s']) := by
      rw [intercalate_append_singleton cs s' hcs_ne]
      rfl
    have hic3 : (('/' :: List.intercalate ['/'] (cs ++ [s'])) ++ '/' :: r' : List Char) =
        '/' :: List.intercalate ['/'] ((cs ++ [s']) ++ [r']) := by
      rw [intercalate_append_singleton (cs ++ [s']) r' (by simp)]
      rfl
    have hpath : pjoin ('/' :: List.intercalate ['/'] cs) [s', r'] =
        '/' :: List.intercalate ['/'] ((cs ++ [s']) ++ [r']) := by
      rw [hjoin, hic2, hic3]
    have hpparts : pparts ('/' :: List.intercalate ['/'] ((cs ++ [s']) ++ [r'])) =
        ['/'] :: ((cs ++ [s']) ++ [r']) := by
      refine pparts_root _ (by simp) ?_
      intro c hc
      rcases List.mem_append.1 hc with hc2 | hc2
      · rcases List.mem_append.1 hc2 with hc3 | hc3
        · exact hclean_cs c hc3
        · rw [List.mem_singleton.1 hc3]
          exact hs'
      · rw [List.mem_singleton.1 hc2]
        exact hr'
    have hppartsroot : pparts ('/' :: List.intercalate ['/'] cs) = ['/'] :: cs :=
      pparts_root cs hcs_ne hclean_cs
    have habs : pIsAbs (pjoin ('/' :: List.intercalate ['/'] cs) [s', r']) = true := by
      rw [hpath]
      rfl
    have hnorm : pnormpath ('/' :: List.intercalate ['/'] cs) =
        '/' :: List.intercalate ['/'] cs := pnormpath_root cs hcs_ne hgood
    unfold pathToOid
    dsimp only
    rw [if_pos habs]
    have habs2 : pabspath ('/' :: List.intercalate ['/'] cs) =
        '/' :: List.intercalate ['/'] cs := by
      unfold pabspath
      rw [if_pos (show pIsAbs ('/' :: List.intercalate ['/'] cs) = true from rfl), hnorm]
    rw [habs2, hppartsroot, hpath, hpparts]
    have hdrop : (['/'] :: ((cs ++ [s']) ++ [r'])).drop ((['/'] :: cs : List (List Char)).length) =
        [s', r'] := by
      have h1 : ((cs ++ [s']) ++ [r'] : List (List Char)) = cs ++ [s', r'] := by simp
      show (['/'] :: ((cs ++ [s']) ++ [r'])).drop (cs.length + 1) = [s', r']
      rw [h1, List.drop_succ_cons]
      exact List.drop_left cs [s', r']
    rw [hdrop]
    dsimp only
    rw [if_pos ⟨hs'.1, hs'2⟩]
  have hscomp : cleanComp s := by
    refine ⟨?_, hsc⟩
    intro h
    rw [h] at hs2
    simp at hs2
  have hrcomp : cleanComp r := ⟨hrne, hrc⟩
  have hscomp0 : cleanComp (oid.take 2) := by
    refine ⟨?_, fun y hy => hsep y (List.mem_of_mem_take hy)⟩
    intro h
    have h2 : (oid.take 2).length = 0 := by rw [h]; rfl
    rw [List.length_take] at h2
    omega
  have hs02 : (oid.take 2).length = 2 := by
    rw [List.length_take]
    omega
  have hrcomp0 : cleanComp (oid.drop 2) := by
    refine ⟨?_, fun y hy => hsep y (List.mem_of_mem_drop hy)⟩
    intro h
    have h2 : (oid.drop 2).length = 0 := by rw [h]; rfl
    rw [List.length_drop] at h2
    omega
  refine ⟨?_, key s r hscomp hs2 hrcomp, ?_⟩
  · have h := key (oid.take 2) (oid.drop 2) hscomp0 hs02 hrcomp0
    unfold oidToPath
    rw [h, List.take_append_drop]
  · unfold oidToPath
    rw [List.take_left' hs2, List.drop_left' hs2]

/-- C6 witness: the round trips at a concrete root `/odb`, oid `aabbccdd`
and stored path `/odb/aa/bbccdd`. -/
theorem c6_witness :
    goodRoot ("/odb".data) [['o', 'd', 'b']] ∧
    3 ≤ ("aabbccdd".data).length ∧
    pathToOid ("/odb".data) (oidToPath ("/odb".data) ("aabbccdd".data)) =
      .ok ("aabbccdd".data) ∧
    pathToOid ("/odb".data) (pjoin ("/odb".data) [("aa".data), ("bbccdd".data)]) =
      .ok ("aa".data ++ "bbccdd".data) ∧
    oidToPath ("/odb".data) ("aa".data ++ "bbccdd".data) =
      pjoin ("/odb".data) [("aa".data), ("bbccdd".data)] := by
  have h := c6_path_oid_roundtrip ("/odb".data) [['o', 'd', 'b']] (by decide)
    ("aabbccdd".data) (by decide) (by decide) ("aa".data) ("bbccdd".data)
    (by decide) (by decide) (by decide) (by decide)
  exact ⟨by decide, by decide, h.1, h.2.1, h.2.2⟩
